import Mathlib

/-!
Verification of the Event Classification & Override Reconciliation Engine.

Shallow embedding of the Python sources:
  app/core/overrides.py  (override store, content signatures, reconciliation)
  app/core/parser.py     (row extraction, in-port classification, per-date
                          resolution, period grouping)

Review-snapshot events are Python dictionaries with a varying key set, so
events are embedded as insertion-ordered association lists over a small
Python-value type `PyVal`.  Python dictionaries keep insertion order and
update a key in place, which `dset` reproduces.  The vessel-lookup
collaborator `match_ship` is external to this repository (spec section 6)
and is passed in as a parameter everywhere it is consumed.

The file is organised as: all definitions first, then all lemmas and the
claim theorems.
-/

/-- Python values as they occur in the review snapshot and override store:
`none_` is Python `None`, `rat` stands in for the float literals
(only `1.0`, `0.7`, `0.4` occur, all exactly representable). -/
inductive PyVal where
  | none_ : PyVal
  | bool : Bool → PyVal
  | int : Int → PyVal
  | str : String → PyVal
  | rat : Rat → PyVal
  | list : List PyVal → PyVal
  | dict : List (String × PyVal) → PyVal
deriving Inhabited

/-- Lookup in an insertion-ordered association list (a Python dict with
values of type `α`). -/
def aget {α : Type} (d : List (String × α)) (k : String) : Option α :=
  match d with
  | [] => none
  | (k', v) :: rest => if k' = k then some v else aget rest k

/-- `d[k] = v` on an association list: replace in place if the key exists
(keeping its position), otherwise append — exactly Python's
insertion-order dict semantics. -/
def aset {α : Type} (d : List (String × α)) (k : String) (v : α) :
    List (String × α) :=
  match d with
  | [] => [(k, v)]
  | (k', v') :: rest => if k' = k then (k', v) :: rest else (k', v') :: aset rest k v

/-- A Python dictionary over `PyVal`. -/
abbrev PyDict := List (String × PyVal)

/-- `d.get(k)` as an `Option` (Python's `d[k]` / `d.get(k)` lookup). -/
def dget (d : PyDict) (k : String) : Option PyVal :=
  aget d k

/-- `d.get(k, default)`. -/
def dgetD (d : PyDict) (k : String) (dflt : PyVal) : PyVal :=
  (dget d k).getD dflt

/-- `d[k] = v` on a `PyDict`. -/
def dset (d : PyDict) (k : String) (v : PyVal) : PyDict :=
  aset d k v

/-- `d.update(kvs)`: set each pair in order. -/
def dupdate (d : PyDict) (kvs : List (String × PyVal)) : PyDict :=
  kvs.foldl (fun acc (kv : String × PyVal) => dset acc kv.1 kv.2) d

/-- `k in d` (Python key-membership test). -/
def dhas (d : PyDict) (k : String) : Bool :=
  (dget d k).isSome

/-- Python `str()` on the value shapes that reach it in this code base.
The signature fields `date`, `ship`, `raw`, `occ_idx` of review events are
always a string, an int, or `None` (see `processing.py`), so the remaining
constructors never reach `str()` here; they are given fixed renderings. -/
def pyStr : PyVal → String
  | .none_ => "None"
  | .bool b => if b then "True" else "False"
  | .int n => toString n
  | .str s => s
  | .rat _ => "<float>"
  | .list _ => "<list>"
  | .dict _ => "<dict>"

/-- An event of the review snapshot: a Python dict (valid rows and invalid
events have different key sets, which the reconciler inspects with `in`). -/
abbrev Event := PyDict

/-- overrides.py `_make_event_signature`: `f"{date}|{ship}|{occ_idx}|{raw}"`
over `str(event.get(field, ""))`. -/
def make_event_signature (event : Event) : String :=
  pyStr (dgetD event "date" (.str "")) ++ "|" ++
  pyStr (dgetD event "ship" (.str "")) ++ "|" ++
  pyStr (dgetD event "occ_idx" (.str "")) ++ "|" ++
  pyStr (dgetD event "raw" (.str ""))

/-- One record of the per-subject override store, as written by
`save_override` (JSON object with exactly these keys; string-or-null values
are `Option String`, mirroring JSON null/Python `None`). -/
structure Override where
  sheet_file : Option String
  event_index : Int
  override_status : Option String
  override_reason : Option String
  source : Option String
  timestamp : String
deriving Repr, DecidableEq, Inhabited

/-- Parsed content of one subject's override store file. -/
structure OverrideFile where
  overrides : List Override
deriving Repr, DecidableEq, Inhabited

/-- Observable state of one subject's override store file on disk. -/
inductive StoreState where
  | missing : StoreState
  | malformed : StoreState
  | ok : OverrideFile → StoreState
deriving Repr, DecidableEq, Inhabited

/-- overrides.py `load_overrides`: a missing file yields the empty override
set; an unreadable or malformed file is caught (`except Exception`) and also
yields the empty set.  The result carries the (unchanged) store state and
the list of warnings the function surfaces — the source logs nothing on any
path, so that list is empty everywhere. -/
def load_overrides : StoreState → OverrideFile × StoreState × List String
  | .missing => (⟨[]⟩, .missing, [])
  | .malformed => (⟨[]⟩, .malformed, [])
  | .ok f => (f, .ok f, [])

/-- overrides.py `save_override` (the pure list transformation it performs
on the stored override list): drop any existing override for the same
`(sheet_file, event_index)` pair, then append the new record.  The
timestamp (`datetime.utcnow()`) is an input. -/
def save_override (ovs : List Override) (sheet_file : Option String)
    (event_index : Int) (status reason source : Option String)
    (timestamp : String) : List Override :=
  let nov : Override :=
    { sheet_file := sheet_file, event_index := event_index,
      override_status := status, override_reason := reason,
      source := source, timestamp := timestamp }
  (ovs.filter fun ov =>
    !(ov.sheet_file == sheet_file && ov.event_index == event_index)) ++ [nov]

/-- Python `x or default` on a string-or-`None` value (`None` and the empty
string are falsy). -/
def pyOrS (x : Option String) (dflt : String) : String :=
  match x with
  | some s => if s = "" then dflt else s
  | none => dflt

/-- Embed a string-or-`None` value into `PyVal`. -/
def optPy (x : Option String) : PyVal :=
  match x with
  | some s => .str s
  | none => .none_

/-- `event.get(k, {})` read as a dict.  In every review snapshot the value
under these keys is a dict when present (see `processing.py`); Python would
raise on any other shape, which never occurs. -/
def getSubDict (e : Event) (k : String) : PyDict :=
  match dget e k with
  | some (.dict od) => od
  | _ => []

/-- `target_event.get("override", {}).get("history", [])`. -/
def getOvHistory (e : Event) : PyVal :=
  dgetD (getSubDict e "override") "history" (.list [])

/-- overrides.py `apply_overrides`, valid→invalid relocation (the
`dict(target_event)` copy updated with the invalid-collection fields). -/
def moveToInvalidEvent (status reason source : Option String) (e : Event) : Event :=
  dupdate e [
    ("reason", .str (pyOrS reason "Forced invalid by override")),
    ("category", .str "override"),
    ("source", .str "override"),
    ("override", .dict [("status", optPy status), ("reason", optPy reason),
                        ("source", optPy source), ("history", getOvHistory e)]),
    ("final_classification", .dict [("is_valid", .bool false), ("reason", optPy reason),
                                    ("source", .str "override")]),
    ("status", .str "invalid"),
    ("status_reason", optPy reason)]

/-- overrides.py `apply_overrides`, invalid→valid relocation: the copied
event updated with the valid-collection fields, then the required valid-row
fields filled in when absent. -/
def moveToValidEvent (status reason source : Option String) (e : Event) : Event :=
  let e1 := dupdate e [
    ("status", .str "valid"),
    ("status_reason", optPy reason),
    ("override", .dict [("status", optPy status), ("reason", optPy reason),
                        ("source", optPy source), ("history", getOvHistory e)]),
    ("final_classification", .dict [("is_valid", .bool true), ("reason", optPy reason),
                                    ("source", .str "override")])]
  [("is_inport", PyVal.bool false), ("inport_label", PyVal.none_),
   ("is_mission", PyVal.bool false), ("label", PyVal.none_),
   ("confidence", PyVal.rat 1)].foldl
    (fun acc fd => if dhas acc fd.1 then acc else dset acc fd.1 fd.2) e1

/-- overrides.py `apply_overrides`, in-place update of an event kept in the
valid collection: ensure-and-update the nested `override` and
`final_classification` dicts, and rewrite `status`/`status_reason` when a
`status` key is present. -/
def inplaceKeepValid (status reason source : Option String) (e : Event) : Event :=
  let e1 := dset e "override" (.dict (dupdate (getSubDict e "override")
              [("status", optPy status), ("reason", optPy reason),
               ("source", optPy source)]))
  let e2 := dset e1 "final_classification" (.dict (dupdate (getSubDict e1 "final_classification")
              [("is_valid", .bool true), ("reason", optPy reason),
               ("source", .str "override")]))
  if dhas e2 "status" then
    dset (dset e2 "status" (.str (pyOrS status "valid"))) "status_reason" (optPy reason)
  else e2

/-- overrides.py `apply_overrides`, in-place update of an event kept in the
invalid collection. -/
def inplaceKeepInvalid (status reason source : Option String) (e : Event) : Event :=
  let e1 := dset e "override" (.dict (dupdate (getSubDict e "override")
              [("status", optPy status), ("reason", optPy reason),
               ("source", optPy source)]))
  dset e1 "final_classification" (.dict (dupdate (getSubDict e1 "final_classification")
              [("is_valid", .bool false), ("reason", optPy reason),
               ("source", .str "override")]))

/-- Which of the two collections an event currently sits in. -/
inductive Loc where
  | valid : Loc
  | invalid : Loc
deriving Repr, DecidableEq, Inhabited

/-- overrides.py `apply_overrides`, positional locator resolution (a
non-negative locator indexes the valid rows, a negative locator `x` indexes
the invalid events at `-x - 1`; anything out of range resolves to nothing). -/
def resolveLoc (idx : Int) (nValid nInvalid : Nat) : Option (Loc × Nat) :=
  if 0 ≤ idx ∧ idx < (nValid : Int) then some (.valid, idx.toNat)
  else if idx < 0 then
    let j := (-idx - 1).toNat
    if j < nInvalid then some (.invalid, j) else none
  else none

/-- STEP 1 of `apply_overrides`: the signature map over both collections
(valid rows first, then invalid events; a duplicated signature keeps the
last write, as a Python dict does). -/
def buildSigMap (v iv : List Event) : List (String × Loc × Nat) :=
  let m1 := v.enum.foldl
    (fun acc (p : Nat × Event) => aset acc (make_event_signature p.2) (Loc.valid, p.1)) []
  iv.enum.foldl
    (fun acc (p : Nat × Event) => aset acc (make_event_signature p.2) (Loc.invalid, p.1)) m1

/-- Loop state of STEP 2/3 of `apply_overrides`: both collections (whose
events are mutated in place) plus the two deferred move lists. -/
abbrev LoopState := List Event × List Event × List (Nat × Event) × List (Nat × Event)

/-- STEP 2/3 of `apply_overrides` for one stored override: resolve the
recorded locator positionally, look the signature of the event found there
up in the signature map, then update in place or record a deferred move.
An unresolvable locator skips the override. -/
def ovStep (all : List (String × Loc × Nat)) (st : LoopState) (ov : Override) : LoopState :=
  let v := st.1
  let iv := st.2.1
  let mi := st.2.2.1
  let mv := st.2.2.2
  match resolveLoc ov.event_index v.length iv.length with
  | none => st
  | some (loc0, i0) =>
    let e0 := match loc0 with
      | .valid => v.getD i0 []
      | .invalid => iv.getD i0 []
    match aget all (make_event_signature e0) with
    | none => st
    | some (loc, i) =>
      let e := match loc with
        | .valid => v.getD i []
        | .invalid => iv.getD i []
      match loc with
      | .valid =>
        if ov.override_status == some "invalid" then
          (v, iv, mi ++ [(i, moveToInvalidEvent ov.override_status ov.override_reason ov.source e)], mv)
        else
          (v.set i (inplaceKeepValid ov.override_status ov.override_reason ov.source e), iv, mi, mv)
      | .invalid =>
        if ov.override_status == some "valid" then
          (v, iv, mi, mv ++ [(i, moveToValidEvent ov.override_status ov.override_reason ov.source e)])
        else
          (v, iv.set i (inplaceKeepInvalid ov.override_status ov.override_reason ov.source e), mi, mv)

/-- Stable insertion: place `x` before the first element `y` with `le x y`.
With `le x y := key y ≤ key x` this is Python's stable
`sort(reverse=True, key=...)`. -/
def insBy {α : Type} (le : α → α → Bool) (x : α) : List α → List α
  | [] => [x]
  | y :: ys => if le x y then x :: y :: ys else y :: insBy le x ys

/-- Stable sort by `le` (Python's `list.sort` is stable; for a total
preorder the stable sort is unique, so any stable algorithm agrees). -/
def sortBy {α : Type} (le : α → α → Bool) (l : List α) : List α :=
  l.foldr (insBy le) []

/-- `l.pop(i)`: the removed element and the remaining list; `none` models
the `IndexError` Python raises when `i` is out of range. -/
def popAt {α : Type} (l : List α) (i : Nat) : Option (α × List α) :=
  if h : i < l.length then some (l.get ⟨i, h⟩, l.eraseIdx i) else none

/-- STEP 4 of `apply_overrides`, valid→invalid moves: append the prepared
invalid entry, then pop the captured valid index. -/
def execMovesInvalid : List (Nat × Event) → List Event × List Event → Option (List Event × List Event)
  | [], st => some st
  | (i, ne) :: rest, (v, iv) =>
    match popAt v i with
    | none => none
    | some (_, v') => execMovesInvalid rest (v', iv ++ [ne])

/-- STEP 4 of `apply_overrides`, invalid→valid moves. -/
def execMovesValid : List (Nat × Event) → List Event × List Event → Option (List Event × List Event)
  | [], st => some st
  | (i, nr) :: rest, (v, iv) =>
    match popAt iv i with
    | none => none
    | some (_, iv') => execMovesValid rest (v ++ [nr], iv')

/-- overrides.py `apply_overrides`, one sheet: build the signature map,
fold the override loop, then execute both deferred move lists in
descending index order.  `none` models an uncaught `IndexError`. -/
def applySheetOverrides (ovs : List Override) (v iv : List Event) :
    Option (List Event × List Event) :=
  let all := buildSigMap v iv
  let st := ovs.foldl (ovStep all) (v, iv, ([] : List (Nat × Event)), ([] : List (Nat × Event)))
  match execMovesInvalid (sortBy (fun a b => b.1 ≤ a.1) st.2.2.1) (st.1, st.2.1) with
  | none => none
  | some p => execMovesValid (sortBy (fun a b => b.1 ≤ a.1) st.2.2.2) p

/-- One sheet of a subject's review snapshot, split into the fields
`apply_overrides` reads or writes; `others` holds the remaining keys of the
sheet dict, which the reconciler never touches. -/
structure Sheet where
  source_file : Option String
  rows : List Event
  invalid_events : List Event
  others : PyDict
deriving Inhabited

/-- A subject's entry in the review snapshot. -/
structure Member where
  sheets : List Sheet
  others : PyDict
deriving Inhabited

/-- An effectful loop (`for` body returning a value per element): the
first uncaught exception aborts the whole call, modelled by `none`. -/
def optMap {α β : Type} (f : α → Option β) : List α → Option (List β)
  | [] => some []
  | a :: as =>
    match f a, optMap f as with
    | some b, some bs => some (b :: bs)
    | _, _ => none

/-- `apply_overrides` on one sheet of the member: filter the stored
overrides to this sheet and run the per-sheet reconciliation; a sheet with
no matching overrides is left untouched. -/
def applyMemberSheet (overrides : List Override) (sheet : Sheet) : Option Sheet :=
  let sheet_overrides := overrides.filter (fun ov => ov.sheet_file == sheet.source_file)
  if sheet_overrides.isEmpty then some sheet
  else
    match applySheetOverrides sheet_overrides sheet.rows sheet.invalid_events with
    | none => none
    | some p => some { sheet with rows := p.1, invalid_events := p.2 }

/-- overrides.py `apply_overrides` for one subject, taking the loaded
override store as input (the source loads it from disk first): an empty
store returns the snapshot unchanged, otherwise every sheet is reconciled. -/
def apply_overrides (store : OverrideFile) (member : Member) : Option Member :=
  if store.overrides.isEmpty then some member
  else
    match optMap (applyMemberSheet store.overrides) member.sheets with
    | none => none
    | some sheets => some { member with sheets := sheets }

/-- `p` is a prefix of `l` (character lists). -/
def listPrefix (p l : List Char) : Bool :=
  match p, l with
  | [], _ => true
  | _ :: _, [] => false
  | a :: as, b :: bs => a == b && listPrefix as bs

/-- `sub` occurs somewhere in `l`. -/
def listHasSub (sub l : List Char) : Bool :=
  match l with
  | [] => sub.isEmpty
  | c :: t => listPrefix sub (c :: t) || listHasSub sub t

/-- Python `sub in s` on strings. -/
def strIn (sub s : String) : Bool :=
  listHasSub sub.toList s.toList

/-- Python truthiness of a string-or-`None` value. -/
def optTruthy (x : Option String) : Bool :=
  match x with
  | some s => s ≠ ""
  | none => false

/-- Split a character list at every occurrence of `sep`. -/
def chSplit (sep : Char) : List Char → List (List Char)
  | [] => [[]]
  | c :: rest =>
    if c = sep then [] :: chSplit sep rest
    else
      match chSplit sep rest with
      | [] => [[c]]
      | g :: gs => (c :: g) :: gs

/-- Python `text.splitlines()` for LF-separated text (the carriage-return
and exotic line-break forms do not occur in the extracted text handled
here): no trailing empty line, `""` gives `[]`. -/
def splitLinesLF (text : String) : List String :=
  if text = "" then []
  else
    let cs := text.data
    let cs := if cs.getLast? = some '\n' then cs.dropLast else cs
    (chSplit '\n' cs).map String.mk

/-- Python `s.strip()` (ASCII whitespace, which is all that occurs here). -/
def trimWs (s : String) : String :=
  String.mk (((s.data.dropWhile Char.isWhitespace).reverse.dropWhile Char.isWhitespace).reverse)

/-- Uppercase an ASCII letter. -/
def upperChar (c : Char) : Char :=
  if 'a' ≤ c ∧ c ≤ 'z' then Char.ofNat (c.toNat - 32) else c

/-- Python `s.upper()` (the extracted text is ASCII). -/
def upperStr (s : String) : String :=
  String.mk (s.data.map upperChar)

/-- The value of a digit string (callers check every character is a
digit). -/
def digitStrToNat (s : String) : Nat :=
  s.data.foldl (fun acc c => acc * 10 + (c.toNat - 48)) 0

/-- Split a character list into its leading digit run and the remainder. -/
def spanDigits (l : List Char) : List Char × List Char :=
  (l.takeWhile Char.isDigit, l.dropWhile Char.isDigit)

/-- parser.py line 86, `re.match(r"\s*(\d{1,2})/(\d{1,2})(?:/(\d{2,4}))?", line)`:
the three captured groups and the text after the match end.  A digit run of
three or more before the first slash can never match (`\d{1,2}` with all
backtracking leaves a digit where `/` is required); the day takes at most
two digits, and the optional year group needs a slash followed by at least
two digits, taking at most four. -/
def matchLeadingDate (line : String) :
    Option (String × String × Option String × String) :=
  let s1 := line.toList.dropWhile Char.isWhitespace
  let (d1, r1) := spanDigits s1
  if d1.length = 0 ∨ d1.length > 2 then none
  else
    match r1 with
    | '/' :: r2 =>
      let (d2, r3) := spanDigits r2
      if d2.length = 0 then none
      else
        let dd := d2.take 2
        let rest0 := d2.drop 2 ++ r3
        match rest0 with
        | '/' :: r4 =>
          let (d3, r5) := spanDigits r4
          if d3.length ≥ 2 then
            some (String.mk d1, String.mk dd, some (String.mk (d3.take 4)),
                  String.mk (d3.drop 4 ++ r5))
          else
            some (String.mk d1, String.mk dd, none, String.mk rest0)
        | _ => some (String.mk d1, String.mk dd, none, String.mk rest0)
    | _ => none

/-- Python `s.zfill(2)` (the inputs here are nonempty digit strings). -/
def zfill2 (s : String) : String :=
  if s.length ≥ 2 then s else if s.length = 1 then "0" ++ s else "00"

/-- parser.py line 91, `y = ("20" + yy) if yy and len(yy) == 2 else yy or year`:
a two-digit year gets the `20` prefix, a missing year falls back to the
`year` argument. -/
def normYear (yy : Option String) (year : String) : String :=
  match yy with
  | some s => if s ≠ "" ∧ s.length = 2 then "20" ++ s else (if s = "" then year else s)
  | none => year

/-- A dated entry collected by PASS 1 of `parse_rows` (its classification
fields are still unset at this point and live on `CEntry`). -/
structure RawEntry where
  raw : String
  upper : String
  date : String
  line_index : Nat
deriving Repr, DecidableEq, Inhabited

/-- PASS 1 of parser.py `parse_rows`: scan each line for the leading date
pattern; on a match, normalize the date and capture the line remainder plus
the following line as the entry text (`.strip()`ped, with an uppercased
copy; `.upper()` is ASCII here). -/
def pass1 (lines : List String) (year : String) : List RawEntry :=
  lines.enum.filterMap fun p =>
    match matchLeadingDate p.2 with
    | none => none
    | some (mm, dd, yy, rest) =>
      let date := zfill2 mm ++ "/" ++ zfill2 dd ++ "/" ++ normYear yy year
      let raw0 := rest ++ (if p.1 + 1 < lines.length then " " ++ lines.getD (p.1 + 1) "" else "")
      let cleaned := trimWs raw0
      some { raw := cleaned, upper := upperStr cleaned, date := date, line_index := p.1 }

/-- Grouping keys in first-encounter order (Python dict insertion order,
used for both `per_date_entries` and the ship groups). -/
def firstKeys {α : Type} [DecidableEq α] (seen : List α) : List α → List α
  | [] => []
  | x :: rest => if x ∈ seen then firstKeys seen rest else x :: firstKeys (seen ++ [x]) rest

/-- The keys of a Python dict built by insertion: first-encounter order. -/
def dedupKeys {α : Type} [DecidableEq α] (l : List α) : List α :=
  firstKeys [] l

/-- parser.py `detect_inport_label`: keyword priority `ASW MITE`,
`ASTAC MITE`, `SBTT` (ship-qualified via the vessel lookup `ms` when it
hits), `MITE`; otherwise not an in-port training event. -/
def detect_inport_label (ms : String → Option String) (raw upper : String) :
    Option String :=
  if strIn "ASW MITE" upper then some "ASW MITE"
  else if strIn "ASTAC MITE" upper then some "ASTAC MITE"
  else if strIn "SBTT" upper then
    match ms raw with
    | some ship => if ship = "" then some "SBTT" else some (ship ++ " SBTT")
    | none => some "SBTT"
  else if strIn "MITE" upper then some "MITE"
  else none

/-- Modelled from the spec (section 4.2 tie-break sentence): the labels of
every classifier keyword rule that "could match" the text, in rule order —
used to compare the classifier against the spec's "longest resulting label
wins" reading.  The source has no such candidate collection. -/
def candidateLabels (ms : String → Option String) (raw upper : String) :
    List String :=
  (if strIn "ASW MITE" upper then ["ASW MITE"] else []) ++
  (if strIn "ASTAC MITE" upper then ["ASTAC MITE"] else []) ++
  (if strIn "SBTT" upper then
    [match ms raw with
     | some ship => if ship = "" then "SBTT" else ship ++ " SBTT"
     | none => "SBTT"]
   else []) ++
  (if strIn "MITE" upper then ["MITE"] else [])

/-- An entry after the classification sweep of PASS 2 (occurrence index,
in-port detection, ship lookup). -/
structure CEntry where
  raw : String
  upper : String
  date : String
  line_index : Nat
  occ_idx : Nat
  ship : Option String
  kind : Option String
  is_inport : Bool
  inport_label : Option String
deriving Repr, DecidableEq, Inhabited

/-- Classification of one entry in PASS 2 of `parse_rows` (parser.py lines
131-154): detect the in-port label; only non-in-port entries get a ship
lookup and a `valid`/`unknown` kind. -/
def classifyOne (ms : String → Option String) (e : RawEntry) (occ : Nat) : CEntry :=
  let label := detect_inport_label ms e.raw e.upper
  if optTruthy label then
    { raw := e.raw, upper := e.upper, date := e.date, line_index := e.line_index,
      occ_idx := occ, ship := none, kind := none, is_inport := true,
      inport_label := label }
  else
    let ship := ms e.raw
    { raw := e.raw, upper := e.upper, date := e.date, line_index := e.line_index,
      occ_idx := occ, ship := ship,
      kind := some (if optTruthy ship then "valid" else "unknown"),
      is_inport := false, inport_label := none }

/-- The classification sweep: occurrence indices count up from `occ + 1`
within the date group, in encounter order. -/
def classifyEntries (ms : String → Option String) (occ : Nat) :
    List RawEntry → List CEntry
  | [] => []
  | e :: rest => classifyOne ms e (occ + 1) :: classifyEntries ms (occ + 1) rest

/-- The `inport_variant` fold of PASS 2: the first strictly-longest in-port
label observed among the date's entries. -/
def pickVariant (acc : Option String) : List CEntry → Option String
  | [] => acc
  | e :: rest =>
    if e.is_inport then
      let l := e.inport_label.getD ""
      pickVariant
        (match acc with
         | none => some l
         | some v => if l.length > v.length then some l else some v) rest
    else pickVariant acc rest

/-- parser.py `is_mission` (substring check for the mission tags). -/
def isMission (e : CEntry) : Bool :=
  strIn "M1" e.upper || strIn "M-1" e.upper || strIn "M2" e.upper || strIn "M-2" e.upper

/-- A valid row emitted by `parse_rows`. -/
structure ValidRow where
  date : String
  ship : Option String
  occ_idx : Nat
deriving Repr, DecidableEq, Inhabited

/-- A duplicate record emitted by `parse_rows` (`skipped_duplicates`). -/
structure DupRec where
  date : String
  ship : Option String
  occ_idx : Nat
  reason : String
deriving Repr, DecidableEq, Inhabited

/-- An invalid record emitted by `parse_rows` (`skipped_unknown`). -/
structure SkipRec where
  date : String
  raw : String
  occ_idx : Nat
  ship : Option String
  reason : String
deriving Repr, DecidableEq, Inhabited

/-- CASE 1 of the per-date resolver: the invalid record for one entry of an
in-port day.  An in-port entry keeps its own label in the reason; all other
entries are suppressed (or unknown) under the date's chosen variant. -/
def inportSkipRec (date variant : String) (e : CEntry) : SkipRec :=
  if e.is_inport then
    let label := pyOrS e.inport_label variant
    { date := date, raw := e.raw, occ_idx := e.occ_idx, ship := some label,
      reason := "In-Port Shore Side Event (" ++ label ++ ")" }
  else
    let ship := pyOrS e.ship "UNK"
    let base := if e.kind == some "unknown" then "Unknown or Non-Platform Event"
                else "Suppressed by In-Port Shore Side Event"
    { date := date, raw := e.raw, occ_idx := e.occ_idx, ship := some ship,
      reason := base ++ " (" ++ variant ++ ")" }

/-- The invalid record for an unknown entry on a date without in-port
training. -/
def unknownSkipRec (date : String) (e : CEntry) : SkipRec :=
  { date := date, raw := e.raw, occ_idx := e.occ_idx, ship := none,
    reason := "Unknown or Non-Platform Event" }

/-- Comparator of Python's `sorted(..., key=lambda x: x["occ_idx"])`. -/
def occLe (a b : CEntry) : Bool :=
  a.occ_idx ≤ b.occ_idx

/-- PASS 2 of parser.py `parse_rows` for the entries sharing one date:
classify, pick the in-port variant, then either CASE 1 (in-port day: no
valid rows, every entry invalid) or CASE 2 (duplicate/mission resolution
among valid entries, unknown entries invalid). -/
def resolveDate (ms : String → Option String) (date : String)
    (es : List RawEntry) : List ValidRow × List DupRec × List SkipRec :=
  let ces := classifyEntries ms 0 es
  let variant := pickVariant none ces
  if optTruthy variant then
    ([], [], ces.map (inportSkipRec date (variant.getD "")))
  else
    match ces.filter (fun e => e.kind == some "valid") with
    | [] => ([], [], (ces.filter (fun e => e.kind == some "unknown")).map (unknownSkipRec date))
    | v0 :: vs =>
      let valids := v0 :: vs
      let kept :=
        if (dedupKeys (valids.map (fun e => e.ship.getD ""))).length = 1 then v0
        else
          match valids.filter isMission with
          | [] => (sortBy occLe valids).headD v0
          | m :: ms' => (sortBy occLe (m :: ms')).headD m
      let dups := (valids.filter (fun e => decide (e ≠ kept))).map (fun e =>
        { date := date, ship := e.ship, occ_idx := e.occ_idx,
          reason := "Duplicate entry for date" : DupRec })
      let unknowns := (ces.filter (fun e => e.kind == some "unknown")).map (unknownSkipRec date)
      ([{ date := date, ship := kept.ship, occ_idx := kept.occ_idx }], dups, unknowns)

/-- parser.py `parse_rows`: PASS 1 collects dated entries, PASS 2 walks the
dates in first-encounter order, appending each date's valid rows, duplicate
records and invalid records. -/
def parse_rows (ms : String → Option String) (text : String) (year : String) :
    List ValidRow × List DupRec × List SkipRec :=
  let entries := pass1 (splitLinesLF text) year
  let keys := dedupKeys (entries.map (fun e => e.date))
  keys.foldl (fun acc d =>
    let r := resolveDate ms d (entries.filter (fun e => decide (e.date = d)))
    (acc.1 ++ r.1, acc.2.1 ++ r.2.1, acc.2.2 ++ r.2.2)) ([], [], [])

/-- Gregorian leap year (as `datetime` implements it). -/
def leapYear (y : Nat) : Bool :=
  y % 4 = 0 && (y % 100 ≠ 0 || y % 400 = 0)

/-- Days in a month of the proleptic Gregorian calendar. -/
def daysInMonth (y m : Nat) : Nat :=
  if m = 2 then (if leapYear y then 29 else 28)
  else if m = 4 ∨ m = 6 ∨ m = 9 ∨ m = 11 then 30 else 31

/-- Python `datetime.strptime(s, "%m/%d/%Y")` reduced to its field
validation: one-or-two-digit month and day, an up-to-four-digit year of at
least 1, and the day checked against the month's length (`strptime` raises
`ValueError` otherwise, modelled as `none`). -/
def strptime_mdY (s : String) : Option (Nat × Nat × Nat) :=
  match (chSplit '/' s.data).map String.mk with
  | [ms, ds, ys] =>
    if (1 ≤ ms.length ∧ ms.length ≤ 2) ∧ ms.data.all Char.isDigit ∧
       (1 ≤ ds.length ∧ ds.length ≤ 2) ∧ ds.data.all Char.isDigit ∧
       (1 ≤ ys.length ∧ ys.length ≤ 4) ∧ ys.data.all Char.isDigit then
      let m := digitStrToNat ms
      let d := digitStrToNat ds
      let y := digitStrToNat ys
      if 1 ≤ y ∧ 1 ≤ m ∧ m ≤ 12 ∧ 1 ≤ d ∧ d ≤ daysInMonth y m then
        some (y, m, d)
      else none
    else none
  | _ => none

/-- The day number of a (valid, year ≥ 1) Gregorian date: the classic
civil-calendar day count (era/year-of-era/day-of-year decomposition).  It
orders dates exactly as `datetime` does, and adding one calendar day

adds one to it, so `datetime` arithmetic on dates is carried by `Nat`. -/
def daysFromCivil (y m d : Nat) : Nat :=
  let y' := if m ≤ 2 then y - 1 else y
  let era := y' / 400
  let yoe := y' % 400
  let mp := if 2 < m then m - 3 else m + 9
  let doy := (153 * mp + 2) / 5 + d - 1
  let doe := yoe * 365 + yoe / 4 - yoe / 100 + doy
  era * 146097 + doe

/-- `datetime.strptime(date, "%m/%d/%Y")` as a day number. -/
def toDayNumber (s : String) : Option Nat :=
  (strptime_mdY s).map fun t => daysFromCivil t.1 t.2.1 t.2.2

/-- A `{ship, start, end}` period emitted by `group_by_ship` (`stop` is the
source's `end`, a Lean keyword), with dates as day numbers. -/
structure Period where
  ship : Option String
  start : Nat
  stop : Nat
deriving Repr, DecidableEq, Inhabited

/-- Insert into a strictly sorted list of distinct numbers (dropping a
duplicate): building block of Python's `sorted(set(dates))`. -/
def insSortedNat (x : Nat) : List Nat → List Nat
  | [] => [x]
  | y :: ys => if x < y then x :: y :: ys else if x = y then y :: ys else y :: insSortedNat x ys

/-- Python `sorted(set(dates))`: the strictly increasing enumeration of the
members of `l` (unique, so any algorithm computing it agrees). -/
def sortedDedup (l : List Nat) : List Nat :=
  l.foldr insSortedNat []

/-- The run walk of parser.py `group_by_ship`: extend the current run while
each date is the previous plus one day, otherwise emit `(start, prev)` and
start a new run. -/
def walkRuns (start prev : Nat) : List Nat → List (Nat × Nat)
  | [] => [(start, prev)]
  | d :: rest =>
    if d = prev + 1 then walkRuns start d rest
    else (start, prev) :: walkRuns d d rest

/-- The maximal contiguous runs of a date list (`dates[0]` seeds the walk;
the empty case cannot arise for a grouped ship, which has at least one
row). -/
def runsOf : List Nat → List (Nat × Nat)
  | [] => []
  | d :: rest => walkRuns d d rest

/-- parser.py `group_by_ship` on rows whose dates are already day numbers:
group by ship in first-encounter order, deduplicate and sort each ship's
dates, and emit one period per contiguous run. -/
def groupPairs (prs : List (Option String × Nat)) : List Period :=
  (dedupKeys (prs.map (fun p => p.1))).flatMap fun s =>
    (runsOf (sortedDedup ((prs.filter (fun p => p.1 == s)).map (fun p => p.2)))).map
      fun ab => { ship := s, start := ab.1, stop := ab.2 }

/-- parser.py `group_by_ship`: parse every row's date (a `strptime` failure
raises, modelled as `none`) and group the resulting (ship, day) pairs. -/
def group_by_ship (rows : List ValidRow) : Option (List Period) :=
  match optMap (fun r => (toDayNumber r.date).map fun n => (r.ship, n)) rows with
  | none => none
  | some prs => some (groupPairs prs)

/-- A vessel-lookup collaborator instance for concrete runs: a best-effort
match against a name registry (spec section 6 interface; the real lookup is
external to this repository). -/
def msRegistry (ships : List String) (raw : String) : Option String :=
  ships.find? (fun s => strIn s (upperStr raw))

/-- An event now sitting in the invalid collection that an override (stored
when the event was valid row 0) targets: the invalid-record shape built by
`processing.py`. -/
def eMovedC1 : Event :=
  [("event_index", .int (-1)), ("status", .str "invalid"),
   ("date", .str "08/01/2025"), ("ship", .str "CHAFEE"),
   ("occ_idx", .int 1), ("raw", .str "CHAFEE 0800 1600"),
   ("reason", .str "Unknown or Non-Platform Event"), ("category", .str "unknown"),
   ("source", .str "parser"),
   ("override", .dict [("status", .none_), ("reason", .none_), ("source", .none_),
                       ("history", .list [])]),
   ("final_classification", .dict [("is_valid", .bool false), ("reason", .str "unknown"),
                                   ("source", .str "system")])]

/-- The stored override recorded against valid row 0 of sheet1.pdf. -/
def ovC1 : Override :=
  ⟨some "sheet1.pdf", 0, some "valid", some "confirmed sea day", some "manual",
   "2025-08-02T00:00:00Z"⟩

/-- The subject snapshot after the target event moved to the invalid
collection: no valid rows are left, so the recorded locator 0 is out of
range. -/
def memberC1 : Member :=
  ⟨[⟨some "sheet1.pdf", [], [eMovedC1], []⟩], []⟩

/-- The classified entries of one date group of `parse_rows` (PASS 1
filtered to the date, classified by the PASS-2 sweep). -/
def classifiedGroup (ms : String → Option String) (text year d : String) :
    List CEntry :=
  classifyEntries ms 0 ((pass1 (splitLinesLF text) year).filter (fun e => decide (e.date = d)))

/-- The classified ALPHA entry of the mission tie-break example. -/
def cAlpha : CEntry :=
  ⟨"ALPHA x", "ALPHA X", "08/01/2025", 0, 1, some "ALPHA", some "valid", false, none⟩

/-- The classified mission-tagged BRAVO entry of the tie-break example. -/
def cBravo : CEntry :=
  ⟨"BRAVO (M1)", "BRAVO (M1)", "08/01/2025", 2, 2, some "BRAVO", some "valid", false, none⟩

/-- An override that, at the given collection sizes, either fails to
resolve (skip) or resolves to an event already in the collection matching
its desired status (in-place update) — i.e. causes no relocation. -/
def inPlaceOkB (ov : Override) (nv ni : Nat) : Bool :=
  match resolveLoc ov.event_index nv ni with
  | none => true
  | some (Loc.valid, _) => !(ov.override_status == some "invalid")
  | some (Loc.invalid, _) => !(ov.override_status == some "valid")

/-- The effect of one in-place (non-relocating) override on the two
collections. -/
def stepIP (st : List Event × List Event) (ov : Override) : List Event × List Event :=
  match resolveLoc ov.event_index st.1.length st.2.length with
  | none => st
  | some (Loc.valid, i) =>
    (st.1.set i (inplaceKeepValid ov.override_status ov.override_reason ov.source
      (st.1.getD i [])), st.2)
  | some (Loc.invalid, i) =>
    (st.1, st.2.set i (inplaceKeepInvalid ov.override_status ov.override_reason ov.source
      (st.2.getD i [])))

/-- A stored valid row (the event-dict shape `processing.py` builds for
valid rows) used by the idempotence witness. -/
def eRowW : Event :=
  [("date", .str "08/03/2025"), ("ship", .str "DEWEY"), ("occ_idx", .int 1),
   ("raw", .str "DEWEY 0800 1600"), ("is_inport", .bool false), ("inport_label", .none_),
   ("is_mission", .bool false), ("label", .none_), ("status", .str "valid"),
   ("status_reason", .str "Valid sea day"), ("confidence", .rat 1)]

/-- An override confirming valid row 0 as valid: it resolves in place. -/
def ovKeepValid : Override :=
  ⟨some "sheet3.pdf", 0, some "valid", some "confirmed sea day", some "manual",
   "2025-08-04T00:00:00Z"⟩

/-- One-sheet snapshot for the idempotence witness. -/
def memberW : Member := ⟨[⟨some "sheet3.pdf", [eRowW], [], []⟩], []⟩

/-- The witness override store. -/
def storeW : OverrideFile := ⟨[ovKeepValid]⟩

/-- First valid row of the non-idempotence counterexample. -/
def eRowA : Event :=
  [("date", .str "08/01/2025"), ("ship", .str "CHAFEE"), ("occ_idx", .int 1),
   ("raw", .str "CHAFEE 0800 1600"), ("is_inport", .bool false), ("inport_label", .none_),
   ("is_mission", .bool false), ("label", .none_), ("status", .str "valid"),
   ("status_reason", .str "Valid sea day"), ("confidence", .rat 1)]

/-- Second valid row of the non-idempotence counterexample. -/
def eRowB : Event :=
  [("date", .str "08/02/2025"), ("ship", .str "CHAFEE"), ("occ_idx", .int 1),
   ("raw", .str "CHAFEE 0700 1500"), ("is_inport", .bool false), ("inport_label", .none_),
   ("is_mission", .bool false), ("label", .none_), ("status", .str "valid"),
   ("status_reason", .str "Valid sea day"), ("confidence", .rat 1)]

/-- An override forcing valid row 0 invalid: it relocates the event. -/
def ovForceInvalid : Override :=
  ⟨some "sheet2.pdf", 0, some "invalid", some "not underway", some "manual",
   "2025-08-05T00:00:00Z"⟩

/-- One-sheet snapshot with two valid rows for the counterexample. -/
def memberC2 : Member := ⟨[⟨some "sheet2.pdf", [eRowA, eRowB], [], []⟩], []⟩

/-- The counterexample override store. -/
def storeC2 : OverrideFile := ⟨[ovForceInvalid]⟩

/-!
Lemmas and claim theorems.
-/

theorem aget_aset_self {α : Type} (d : List (String × α)) (k : String) (v : α) :
    aget (aset d k v) k = some v := by
  induction d with
  | nil => simp [aget, aset]
  | cons kv rest ih =>
    obtain ⟨k', v'⟩ := kv
    by_cases h : k' = k
    · simp [aget, aset, h]
    · simp [aget, aset, h, ih]

theorem aget_aset_ne {α : Type} (d : List (String × α)) (k k' : String) (v : α)
    (h : k' ≠ k) : aget (aset d k' v) k = aget d k := by
  induction d with
  | nil => simp [aget, aset, h]
  | cons kv rest ih =>
    obtain ⟨k₀, v₀⟩ := kv
    by_cases h₀ : k₀ = k'
    · subst h₀
      simp [aget, aset, h]
    · by_cases h₁ : k₀ = k
      · subst h₁
        simp [aget, aset, h₀, Ne.symm h]
      · simp [aget, aset, h₀, h₁, ih]

theorem aset_eq_of_aget {α : Type} (d : List (String × α)) (k : String) (v : α)
    (h : aget d k = some v) : aset d k v = d := by
  induction d with
  | nil => simp [aget] at h
  | cons kv rest ih =>
    obtain ⟨k', v'⟩ := kv
    by_cases h' : k' = k
    · simp [aget, h'] at h
      simp [aset, h', h]
    · simp [aget, h'] at h
      simp [aset, h', ih h]

theorem aset_aset_same {α : Type} (d : List (String × α)) (k : String) (v v' : α) :
    aset (aset d k v) k v' = aset d k v' := by
  induction d with
  | nil => simp [aset]
  | cons kv rest ih =>
    obtain ⟨k₀, v₀⟩ := kv
    by_cases h : k₀ = k
    · simp [aset, h]
    · simp [aset, h, ih]

theorem dget_dupdate_ne (d : PyDict) (kvs : List (String × PyVal)) (k : String)
    (h : ∀ kv ∈ kvs, kv.1 ≠ k) : dget (dupdate d kvs) k = dget d k := by
  induction kvs generalizing d with
  | nil => simp [dupdate]
  | cons kv rest ih =>
    have h1 : kv.1 ≠ k := h kv (List.mem_cons_self kv rest)
    have h2 : ∀ kv' ∈ rest, kv'.1 ≠ k := fun kv' hm => h kv' (List.mem_cons_of_mem kv hm)
    calc dget (dupdate d (kv :: rest)) k
        = dget (dupdate (dset d kv.1 kv.2) rest) k := by simp [dupdate]
      _ = dget (dset d kv.1 kv.2) k := ih _ h2
      _ = dget d k := aget_aset_ne d k kv.1 kv.2 h1

theorem dget_ensure_ne (e : PyDict) (fds : List (String × PyVal)) (k : String)
    (h : ∀ fd ∈ fds, fd.1 ≠ k) :
    dget (fds.foldl (fun acc fd => if dhas acc fd.1 then acc else dset acc fd.1 fd.2) e) k
      = dget e k := by
  induction fds generalizing e with
  | nil => simp
  | cons fd rest ih =>
    have h1 : fd.1 ≠ k := h fd (List.mem_cons_self fd rest)
    have h2 : ∀ fd' ∈ rest, fd'.1 ≠ k := fun fd' hm => h fd' (List.mem_cons_of_mem fd hm)
    simp only [List.foldl_cons]
    by_cases hc : dhas e fd.1
    · rw [if_pos hc]
      exact ih e h2
    · rw [if_neg hc]
      rw [ih _ h2]
      exact aget_aset_ne e k fd.1 fd.2 h1

/-- Claim C10: after `save_override`, the stored list holds exactly one
override for the targeted `(sheet_file, event_index)` pair — the new
record, appended last — and every override for any other pair is preserved
unchanged (so saving twice for the same target keeps a single override). -/
theorem save_override_replaces (ovs : List Override) (sf : Option String)
    (ei : Int) (st rs src : Option String) (ts : String) :
    (save_override ovs sf ei st rs src ts).filter
        (fun ov => ov.sheet_file == sf && ov.event_index == ei)
      = [{ sheet_file := sf, event_index := ei, override_status := st,
           override_reason := rs, source := src, timestamp := ts }] ∧
    (save_override ovs sf ei st rs src ts).getLast?
      = some { sheet_file := sf, event_index := ei, override_status := st,
               override_reason := rs, source := src, timestamp := ts } ∧
    (save_override ovs sf ei st rs src ts).filter
        (fun ov => !(ov.sheet_file == sf && ov.event_index == ei))
      = ovs.filter (fun ov => !(ov.sheet_file == sf && ov.event_index == ei)) := by
  refine ⟨?_, ?_, ?_⟩
  · simp [save_override, List.filter_append, List.filter_filter]
  · simp [save_override]
  · simp [save_override, List.filter_append, List.filter_filter]

/-- Claim C8 counterexample: loading a malformed (or unreadable) override
store returns the empty override set with the store untouched but surfaces
no warning at all — the warning component of the run is empty, against the
claim's "a warning is surfaced". -/
theorem load_overrides_malformed_silent :
    load_overrides .malformed = (⟨[]⟩, .malformed, []) := rfl

/-- Claim C8 (amended): for a missing, unreadable or malformed override
store, `load_overrides` returns the empty override set instead of raising,
leaves the store untouched, and reconciliation with that result leaves any
snapshot unchanged; no warning is surfaced (the source is silent). -/
theorem load_overrides_degrades (st : StoreState)
    (h : st = .missing ∨ st = .malformed) :
    (load_overrides st).1 = ⟨[]⟩ ∧
    (load_overrides st).2.1 = st ∧
    (load_overrides st).2.2 = [] ∧
    ∀ m : Member, apply_overrides (load_overrides st).1 m = some m := by
  rcases h with h | h <;> subst h <;>
    exact ⟨rfl, rfl, rfl, fun m => rfl⟩

/-- Witness for C8's amended theorem at the malformed store. -/
theorem load_overrides_degrades_witness :
    (load_overrides .malformed).1 = ⟨[]⟩ ∧
    (load_overrides .malformed).2.1 = .malformed ∧
    (load_overrides .malformed).2.2 = [] ∧
    ∀ m : Member, apply_overrides (load_overrides .malformed).1 m = some m :=
  load_overrides_degrades .malformed (Or.inr rfl)

/-- The content signature only reads the four fields `date`, `ship`,
`occ_idx`, `raw`. -/
theorem sig_eq_of_fields (e e' : Event)
    (hd : dget e' "date" = dget e "date") (hs : dget e' "ship" = dget e "ship")
    (ho : dget e' "occ_idx" = dget e "occ_idx") (hr : dget e' "raw" = dget e "raw") :
    make_event_signature e' = make_event_signature e := by
  unfold make_event_signature dgetD
  rw [hd, hs, ho, hr]

/-- Claim C7: relocating an event between the valid and invalid
collections (either direction) never changes the fields the content
signature reads — date, ship-or-label, occurrence index, raw text — so the
computed signature of the moved event equals the one it had before. -/
theorem signature_stable_under_relocation (status reason source : Option String)
    (e : Event) :
    make_event_signature (moveToInvalidEvent status reason source e)
      = make_event_signature e ∧
    make_event_signature (moveToValidEvent status reason source e)
      = make_event_signature e := by
  constructor
  · refine sig_eq_of_fields _ _ ?_ ?_ ?_ ?_ <;>
    · simp only [moveToInvalidEvent]
      exact dget_dupdate_ne _ _ _ (by simp)
  · refine sig_eq_of_fields _ _ ?_ ?_ ?_ ?_ <;>
    · simp only [moveToValidEvent]
      exact (dget_ensure_ne _ _ _ (by simp)).trans (dget_dupdate_ne _ _ _ (by simp))

/-- Claim C1, evaluated at the failing input: the stored override's locator
(valid row 0) is out of range in the current snapshot, and the event it
targeted sits in the invalid collection — yet reconciliation returns the
snapshot unchanged.  No signature recomputation or cross-collection search
happens (the code skips any override whose positional lookup fails), against
both the claim and the reconciler's own docstring. -/
theorem apply_overrides_skips_out_of_range :
    apply_overrides ⟨[ovC1]⟩ memberC1 = some memberC1 := rfl

/-- Claim C3 counterexample: on text carrying both a ship-qualified SBTT
and the ASW MITE keyword, the classifier returns the priority-first label
"ASW MITE" even though the matchable label "CHAFEE SBTT" is strictly
longer, so the longest-label tie-break of the claim does not hold. -/
theorem detect_inport_label_not_longest :
    detect_inport_label (msRegistry ["CHAFEE"]) "CHAFEE SBTT ASW MITE" "CHAFEE SBTT ASW MITE"
      = some "ASW MITE" ∧
    "CHAFEE SBTT" ∈ candidateLabels (msRegistry ["CHAFEE"]) "CHAFEE SBTT ASW MITE" "CHAFEE SBTT ASW MITE" ∧
    ("ASW MITE" : String).length < ("CHAFEE SBTT" : String).length := by
  decide

/-- Claim C3 (amended): the classifier resolves keyword overlap by rule
priority, not label length — its result is the first label in rule order
(ASW MITE, ASTAC MITE, ship-qualified SBTT or SBTT, MITE) among the rules
that match; in particular, when neither ASW MITE nor ASTAC MITE occurs and
the vessel lookup hits, the ship-qualified SBTT label wins and is strictly
longer than both the bare SBTT and MITE labels. -/
theorem detect_inport_label_priority (ms : String → Option String) (raw upper : String) :
    detect_inport_label ms raw upper = (candidateLabels ms raw upper).head? ∧
    (strIn "ASW MITE" upper = false → strIn "ASTAC MITE" upper = false →
     strIn "SBTT" upper = true → ∀ s, ms raw = some s → s ≠ "" →
     detect_inport_label ms raw upper = some (s ++ " SBTT") ∧
     ("SBTT" : String).length < (s ++ " SBTT").length ∧
     ("MITE" : String).length < (s ++ " SBTT").length) := by
  constructor
  · by_cases h1 : strIn "ASW MITE" upper
    · simp [detect_inport_label, candidateLabels, h1]
    · by_cases h2 : strIn "ASTAC MITE" upper
      · simp [detect_inport_label, candidateLabels, h1, h2]
      · by_cases h3 : strIn "SBTT" upper
        · rcases hm : ms raw with _ | s
          · simp [detect_inport_label, candidateLabels, h1, h2, h3, hm]
          · by_cases hs : s = "" <;>
              simp [detect_inport_label, candidateLabels, h1, h2, h3, hm, hs]
        · by_cases h4 : strIn "MITE" upper <;>
            simp [detect_inport_label, candidateLabels, h1, h2, h3, h4]
  · intro h1 h2 h3 s hm hs
    refine ⟨by simp [detect_inport_label, h1, h2, h3, hm, hs], ?_, ?_⟩
    · rw [String.length_append]
      have : ("SBTT" : String).length = 4 := rfl
      have : (" SBTT" : String).length = 5 := rfl
      omega
    · rw [String.length_append]
      have : ("MITE" : String).length = 4 := rfl
      have : (" SBTT" : String).length = 5 := rfl
      omega

/-- Witness for C3's amended theorem on text where the ship-qualified SBTT
rule fires. -/
theorem detect_inport_label_priority_witness :
    detect_inport_label (msRegistry ["CHAFEE"]) "CHAFEE SBTT MITE" "CHAFEE SBTT MITE"
      = (candidateLabels (msRegistry ["CHAFEE"]) "CHAFEE SBTT MITE" "CHAFEE SBTT MITE").head? ∧
    detect_inport_label (msRegistry ["CHAFEE"]) "CHAFEE SBTT MITE" "CHAFEE SBTT MITE"
      = some ("CHAFEE" ++ " SBTT") ∧
    ("SBTT" : String).length < ("CHAFEE" ++ " SBTT" : String).length ∧
    ("MITE" : String).length < ("CHAFEE" ++ " SBTT" : String).length := by
  refine ⟨(detect_inport_label_priority (msRegistry ["CHAFEE"]) "CHAFEE SBTT MITE" "CHAFEE SBTT MITE").1, ?_⟩
  exact (detect_inport_label_priority (msRegistry ["CHAFEE"]) "CHAFEE SBTT MITE" "CHAFEE SBTT MITE").2
    (by decide) (by decide) (by decide) "CHAFEE" (by decide) (by decide)

theorem mem_firstKeys {α : Type} [DecidableEq α] (seen l : List α) (x : α) :
    x ∈ firstKeys seen l ↔ x ∈ l ∧ x ∉ seen := by
  induction l generalizing seen with
  | nil => simp [firstKeys]
  | cons y rest ih =>
    by_cases hy : y ∈ seen
    · rw [firstKeys, if_pos hy, ih]
      constructor
      · exact fun ⟨h1, h2⟩ => ⟨List.mem_cons_of_mem y h1, h2⟩
      · rintro ⟨h1, h2⟩
        rcases List.mem_cons.mp h1 with rfl | h1
        · exact absurd hy h2
        · exact ⟨h1, h2⟩
    · rw [firstKeys, if_neg hy]
      constructor
      · intro h
        rcases List.mem_cons.mp h with rfl | h
        · exact ⟨List.mem_cons_self x rest, hy⟩
        · obtain ⟨h1, h2⟩ := (ih _).mp h
          simp at h2
          exact ⟨List.mem_cons_of_mem y h1, h2.1⟩
      · rintro ⟨h1, h2⟩
        rcases List.mem_cons.mp h1 with rfl | h1
        · exact List.mem_cons_self x _
        · by_cases hx : x = y
          · subst hx
            exact List.mem_cons_self x _
          · refine List.mem_cons_of_mem y ((ih _).mpr ⟨h1, ?_⟩)
            simp [h2, hx]

theorem nodup_firstKeys {α : Type} [DecidableEq α] (seen l : List α) :
    (firstKeys seen l).Nodup := by
  induction l generalizing seen with
  | nil => simp [firstKeys]
  | cons y rest ih =>
    by_cases hy : y ∈ seen
    · rw [firstKeys, if_pos hy]
      exact ih seen
    · rw [firstKeys, if_neg hy]
      refine List.Nodup.cons ?_ (ih (seen ++ [y]))
      intro hmem
      have := (mem_firstKeys _ _ _).mp hmem
      simp at this

theorem mem_dedupKeys {α : Type} [DecidableEq α] (l : List α) (x : α) :
    x ∈ dedupKeys l ↔ x ∈ l := by
  rw [dedupKeys, mem_firstKeys]
  simp

theorem nodup_dedupKeys {α : Type} [DecidableEq α] (l : List α) :
    (dedupKeys l).Nodup :=
  nodup_firstKeys [] l

/-- Every record `resolveDate` emits carries the date of its group. -/
theorem resolveDate_dates (ms : String → Option String) (d : String)
    (es : List RawEntry) :
    (∀ r ∈ (resolveDate ms d es).1, r.date = d) ∧
    (∀ r ∈ (resolveDate ms d es).2.1, r.date = d) ∧
    (∀ r ∈ (resolveDate ms d es).2.2, r.date = d) := by
  cases hb : optTruthy (pickVariant none (classifyEntries ms 0 es)) with
  | true =>
    refine ⟨by simp [resolveDate, hb], by simp [resolveDate, hb], ?_⟩
    intro r hr
    simp only [resolveDate, hb, if_true] at hr
    obtain ⟨e, _, rfl⟩ := List.mem_map.mp hr
    unfold inportSkipRec
    by_cases hi : e.is_inport <;> simp [hi]
  | false =>
    rcases hfv : (classifyEntries ms 0 es).filter (fun e => e.kind == some "valid")
      with _ | ⟨v0, vs⟩
    · refine ⟨by simp [resolveDate, hb, hfv], by simp [resolveDate, hb, hfv], ?_⟩
      intro r hr
      simp only [resolveDate, hb, hfv, Bool.false_eq_true, if_false] at hr
      obtain ⟨e, _, rfl⟩ := List.mem_map.mp hr
      simp [unknownSkipRec]
    · refine ⟨?_, ?_, ?_⟩
      · intro r hr
        simp only [resolveDate, hb, hfv, Bool.false_eq_true, if_false] at hr
        simp only [List.mem_singleton] at hr
        subst hr
        rfl
      · intro r hr
        simp only [resolveDate, hb, hfv, Bool.false_eq_true, if_false] at hr
        obtain ⟨e, _, rfl⟩ := List.mem_map.mp hr
        rfl
      · intro r hr
        simp only [resolveDate, hb, hfv, Bool.false_eq_true, if_false] at hr
        obtain ⟨e, _, rfl⟩ := List.mem_map.mp hr
        simp [unknownSkipRec]

/-- The `parse_rows` fold is the concatenation of the per-date results. -/
theorem parse_rows_eq_flat (ms : String → Option String) (text year : String) :
    parse_rows ms text year =
      ((dedupKeys ((pass1 (splitLinesLF text) year).map (fun e => e.date))).flatMap
         (fun d => (resolveDate ms d ((pass1 (splitLinesLF text) year).filter
           (fun e => decide (e.date = d)))).1),
       (dedupKeys ((pass1 (splitLinesLF text) year).map (fun e => e.date))).flatMap
         (fun d => (resolveDate ms d ((pass1 (splitLinesLF text) year).filter
           (fun e => decide (e.date = d)))).2.1),
       (dedupKeys ((pass1 (splitLinesLF text) year).map (fun e => e.date))).flatMap
         (fun d => (resolveDate ms d ((pass1 (splitLinesLF text) year).filter
           (fun e => decide (e.date = d)))).2.2)) := by
  have h : ∀ (keys : List String) (a : List ValidRow) (b : List DupRec) (c : List SkipRec),
      keys.foldl (fun acc d =>
        (acc.1 ++ (resolveDate ms d ((pass1 (splitLinesLF text) year).filter
            (fun e => decide (e.date = d)))).1,
         acc.2.1 ++ (resolveDate ms d ((pass1 (splitLinesLF text) year).filter
            (fun e => decide (e.date = d)))).2.1,
         acc.2.2 ++ (resolveDate ms d ((pass1 (splitLinesLF text) year).filter
            (fun e => decide (e.date = d)))).2.2)) (a, b, c) =
      (a ++ keys.flatMap (fun d => (resolveDate ms d ((pass1 (splitLinesLF text) year).filter
            (fun e => decide (e.date = d)))).1),
       b ++ keys.flatMap (fun d => (resolveDate ms d ((pass1 (splitLinesLF text) year).filter
            (fun e => decide (e.date = d)))).2.1),
       c ++ keys.flatMap (fun d => (resolveDate ms d ((pass1 (splitLinesLF text) year).filter
            (fun e => decide (e.date = d)))).2.2)) := by
    intro keys
    induction keys with
    | nil => intro a b c; simp
    | cons k rest ih =>
      intro a b c
      simp only [List.foldl_cons, List.flatMap_cons, ih]
      simp [List.append_assoc]
  have h2 := h (dedupKeys ((pass1 (splitLinesLF text) year).map (fun e => e.date))) [] [] []
  simpa using h2

theorem filter_flatMap_eq {κ β : Type} [DecidableEq κ] (keys : List κ) (F : κ → List β)
    (p : β → κ) (hF : ∀ d' : κ, ∀ r ∈ F d', p r = d') (hnd : keys.Nodup)
    (d : κ) :
    (keys.flatMap F).filter (fun r => decide (p r = d)) = if d ∈ keys then F d else [] := by
  induction keys with
  | nil => simp
  | cons k rest ih =>
    have hnd' : rest.Nodup := List.Nodup.of_cons hnd
    simp only [List.flatMap_cons, List.filter_append]
    by_cases hk : k = d
    · subst hk
      have h1 : (F k).filter (fun r => decide (p r = k)) = F k :=
        List.filter_eq_self.mpr (fun r hr => by simp [hF k r hr])
      have hknr : k ∉ rest := (List.nodup_cons.mp hnd).1
      have h2 : (rest.flatMap F).filter (fun r => decide (p r = k)) = [] := by
        rw [ih hnd']
        simp [hknr]
      simp [h1, h2, List.mem_cons]
    · have h1 : (F k).filter (fun r => decide (p r = d)) = [] := by
        rw [List.filter_eq_nil_iff]
        intro r hr
        simp [hF k r hr, hk]
      have hmem : d ∈ k :: rest ↔ d ∈ rest := by
        constructor
        · intro h
          rcases List.mem_cons.mp h with h | h
          · exact absurd h.symm hk
          · exact h
        · exact List.mem_cons_of_mem k
      rw [h1, ih hnd', List.nil_append]
      by_cases hd : d ∈ rest
      · rw [if_pos hd, if_pos (hmem.mpr hd)]
      · rw [if_neg hd, if_neg (fun hc => hd (hmem.mp hc))]

/-- Filtering the `parse_rows` output to one date yields exactly that
date's group result. -/
theorem parse_rows_filter_date (ms : String → Option String) (text year d : String) :
    (parse_rows ms text year).1.filter (fun r => decide (r.date = d))
      = (resolveDate ms d ((pass1 (splitLinesLF text) year).filter
          (fun e => decide (e.date = d)))).1 ∧
    (parse_rows ms text year).2.1.filter (fun r => decide (r.date = d))
      = (resolveDate ms d ((pass1 (splitLinesLF text) year).filter
          (fun e => decide (e.date = d)))).2.1 ∧
    (parse_rows ms text year).2.2.filter (fun r => decide (r.date = d))
      = (resolveDate ms d ((pass1 (splitLinesLF text) year).filter
          (fun e => decide (e.date = d)))).2.2 := by
  have hflat := parse_rows_eq_flat ms text year
  have hnd := nodup_dedupKeys ((pass1 (splitLinesLF text) year).map (fun e => e.date))
  have hempty : d ∉ dedupKeys ((pass1 (splitLinesLF text) year).map (fun e => e.date)) →
      (pass1 (splitLinesLF text) year).filter (fun e => decide (e.date = d)) = [] := by
    intro hd
    rw [mem_dedupKeys] at hd
    rw [List.filter_eq_nil_iff]
    intro e he
    simp only [decide_eq_true_eq]
    intro hdate
    exact hd (hdate ▸ List.mem_map_of_mem (fun e => e.date) he)
  refine ⟨?_, ?_, ?_⟩
  · rw [hflat]
    rw [filter_flatMap_eq _ _ _ (fun d' r hr => ((resolveDate_dates ms d' _).1 r hr)) hnd d]
    by_cases hd : d ∈ dedupKeys ((pass1 (splitLinesLF text) year).map (fun e => e.date))
    · simp [hd]
    · rw [if_neg hd, hempty hd]
      rfl
  · rw [hflat]
    rw [filter_flatMap_eq _ _ _ (fun d' r hr => ((resolveDate_dates ms d' _).2.1 r hr)) hnd d]
    by_cases hd : d ∈ dedupKeys ((pass1 (splitLinesLF text) year).map (fun e => e.date))
    · simp [hd]
    · rw [if_neg hd, hempty hd]
      rfl
  · rw [hflat]
    rw [filter_flatMap_eq _ _ _ (fun d' r hr => ((resolveDate_dates ms d' _).2.2 r hr)) hnd d]
    by_cases hd : d ∈ dedupKeys ((pass1 (splitLinesLF text) year).map (fun e => e.date))
    · simp [hd]
    · rw [if_neg hd, hempty hd]
      rfl

theorem classifyOne_occ (ms : String → Option String) (e : RawEntry) (occ : Nat) :
    (classifyOne ms e occ).occ_idx = occ := by
  by_cases h : optTruthy (detect_inport_label ms e.raw e.upper) <;>
    simp [classifyOne, h]

theorem classifyEntries_occ (ms : String → Option String) :
    ∀ (es : List RawEntry) (occ : Nat),
      (classifyEntries ms occ es).map (fun e => e.occ_idx)
        = List.range' (occ + 1) es.length := by
  intro es
  induction es with
  | nil => intro occ; simp [classifyEntries]
  | cons e rest ih =>
    intro occ
    simp only [classifyEntries, List.map_cons, classifyOne_occ, List.length_cons,
      List.range'_succ, ih]

/-- Claim C9: for every line whose leading date pattern matches, PASS 1 of
`parse_rows` emits an entry whose normalized date uses the `20`-prefixed
two-digit year, or the fallback year when the year component is missing;
and PASS 2 assigns occurrence indices sequentially from 1 within each
normalized date, in encounter order (so they are unique per date). -/
theorem parse_rows_date_and_occ (ms : String → Option String) (text year : String) :
    (∀ i, ∀ h : i < (splitLinesLF text).length, ∀ mm dd yy rest,
      matchLeadingDate ((splitLinesLF text)[i]) = some (mm, dd, yy, rest) →
      ∃ e ∈ pass1 (splitLinesLF text) year, e.line_index = i ∧
        e.date = zfill2 mm ++ "/" ++ zfill2 dd ++ "/" ++ normYear yy year ∧
        (∀ s, yy = some s → s.length = 2 → normYear yy year = "20" ++ s) ∧
        (yy = none → normYear yy year = year)) ∧
    (∀ d, (classifiedGroup ms text year d).map (fun e => e.occ_idx)
      = List.range' 1 ((pass1 (splitLinesLF text) year).filter
          (fun e => decide (e.date = d))).length) := by
  constructor
  · intro i h mm dd yy rest hm
    have henum : (i, (splitLinesLF text)[i]) ∈ (splitLinesLF text).enum := by
      rw [List.mem_enum_iff_getElem?]
      exact List.getElem?_eq_getElem h
    refine ⟨⟨trimWs (rest ++ (if i + 1 < (splitLinesLF text).length
                then " " ++ (splitLinesLF text).getD (i + 1) "" else "")),
             upperStr (trimWs (rest ++ (if i + 1 < (splitLinesLF text).length
                then " " ++ (splitLinesLF text).getD (i + 1) "" else ""))),
             zfill2 mm ++ "/" ++ zfill2 dd ++ "/" ++ normYear yy year, i⟩,
           List.mem_filterMap.mpr ⟨(i, (splitLinesLF text)[i]), henum, ?_⟩, rfl, rfl, ?_, ?_⟩
    · simp only [pass1, hm]
    · rintro s rfl hs
      have hne : s ≠ "" := by
        intro h0
        rw [h0] at hs
        simp at hs
      simp [normYear, hne, hs]
    · rintro rfl
      rfl
  · intro d
    exact classifyEntries_occ ms _ 0

/-- Witness for C9 on a two-digit-year line and a year-less line. -/
theorem parse_rows_date_and_occ_witness :
    (∃ e ∈ pass1 (splitLinesLF "8/1/25 CHAFEE\n9/2 CHAFEE") "1999", e.line_index = 0 ∧
      e.date = zfill2 "8" ++ "/" ++ zfill2 "1" ++ "/" ++ normYear (some "25") "1999" ∧
      (∀ s, some "25" = some s → s.length = 2 → normYear (some "25") "1999" = "20" ++ s) ∧
      (some "25" = none → normYear (some "25") "1999" = "1999")) ∧
    (∃ e ∈ pass1 (splitLinesLF "8/1/25 CHAFEE\n9/2 CHAFEE") "1999", e.line_index = 1 ∧
      e.date = zfill2 "9" ++ "/" ++ zfill2 "2" ++ "/" ++ normYear none "1999" ∧
      (∀ s, (none : Option String) = some s → s.length = 2 → normYear none "1999" = "20" ++ s) ∧
      ((none : Option String) = none → normYear none "1999" = "1999")) ∧
    zfill2 "8" ++ "/" ++ zfill2 "1" ++ "/" ++ normYear (some "25") "1999" = "08/01/2025" ∧
    zfill2 "9" ++ "/" ++ zfill2 "2" ++ "/" ++ normYear none "1999" = "09/02/1999" ∧
    (classifiedGroup (fun _ => none) "8/1/25 CHAFEE\n9/2 CHAFEE" "1999" "08/01/2025").map
        (fun e => e.occ_idx)
      = List.range' 1 ((pass1 (splitLinesLF "8/1/25 CHAFEE\n9/2 CHAFEE") "1999").filter
          (fun e => decide (e.date = "08/01/2025"))).length := by
  refine ⟨?_, ?_, by decide, by decide, ?_⟩
  · exact (parse_rows_date_and_occ (fun _ => none) "8/1/25 CHAFEE\n9/2 CHAFEE" "1999").1
      0 (by decide) "8" "1" (some "25") " CHAFEE" (by decide)
  · exact (parse_rows_date_and_occ (fun _ => none) "8/1/25 CHAFEE\n9/2 CHAFEE" "1999").1
      1 (by decide) "9" "2" none " CHAFEE" (by decide)
  · exact (parse_rows_date_and_occ (fun _ => none) "8/1/25 CHAFEE\n9/2 CHAFEE" "1999").2
      "08/01/2025"

theorem classifyEntries_inport_label (ms : String → Option String) :
    ∀ (es : List RawEntry) (occ : Nat), ∀ ce ∈ classifyEntries ms occ es,
      ce.is_inport = true → optTruthy ce.inport_label = true := by
  intro es
  induction es with
  | nil => intro occ ce hce; simp [classifyEntries] at hce
  | cons e rest ih =>
    intro occ ce hce hip
    rcases List.mem_cons.mp hce with rfl | hce
    · by_cases h : optTruthy (detect_inport_label ms e.raw e.upper)
      · simp only [classifyOne, h, if_true]
      · simp [classifyOne, h] at hip
    · exact ih (occ + 1) ce hce hip

theorem pickVariant_acc_truthy (ces : List CEntry) :
    ∀ acc, optTruthy acc = true → optTruthy (pickVariant acc ces) = true := by
  induction ces with
  | nil => intro acc hacc; simpa [pickVariant] using hacc
  | cons e rest ih =>
    intro acc hacc
    by_cases hip : e.is_inport
    · rw [pickVariant, if_pos hip]
      apply ih
      rcases acc with _ | v
      · simp [optTruthy] at hacc
      · show optTruthy (if (e.inport_label.getD "").length > v.length
            then some (e.inport_label.getD "") else some v) = true
        by_cases hlen : (e.inport_label.getD "").length > v.length
        · rw [if_pos hlen]
          have hne : (e.inport_label.getD "") ≠ "" := by
            intro h0
            rw [h0] at hlen
            simp only [optTruthy, decide_eq_true_eq] at hacc
            have h1 : ("" : String).length = 0 := rfl
            omega
          simpa [optTruthy] using hne
        · rw [if_neg hlen]
          exact hacc
    · rw [pickVariant, if_neg hip]
      exact ih acc hacc

theorem pickVariant_inport_truthy (ces : List CEntry)
    (h : ∀ e ∈ ces, e.is_inport = true → optTruthy e.inport_label = true) :
    ∀ acc, ces.any (fun e => e.is_inport) = true →
      optTruthy (pickVariant acc ces) = true := by
  induction ces with
  | nil => intro acc hany; simp at hany
  | cons e rest ih =>
    intro acc hany
    have hrest : ∀ e' ∈ rest, e'.is_inport = true → optTruthy e'.inport_label = true :=
      fun e' he' => h e' (List.mem_cons_of_mem e he')
    by_cases hip : e.is_inport
    · have hl : optTruthy e.inport_label = true := h e (List.mem_cons_self e rest) hip
      have hlg : (e.inport_label.getD "") ≠ "" := by
        rcases hlab : e.inport_label with _ | s
        · rw [hlab] at hl
          simp [optTruthy] at hl
        · rw [hlab] at hl
          simp only [optTruthy, decide_eq_true_eq] at hl
          simpa using hl
      rw [pickVariant, if_pos hip]
      apply pickVariant_acc_truthy
      rcases acc with _ | v
      · simpa [optTruthy] using hlg
      · show optTruthy (if (e.inport_label.getD "").length > v.length
            then some (e.inport_label.getD "") else some v) = true
        by_cases hlen : (e.inport_label.getD "").length > v.length
        · rw [if_pos hlen]
          simpa [optTruthy] using hlg
        · rw [if_neg hlen]
          simp only [optTruthy, decide_eq_true_eq]
          intro h0
          rw [h0] at hlen
          have h1 : ("" : String).length = 0 := rfl
          have h2 : 1 ≤ (e.inport_label.getD "").length := by
            rcases hg : e.inport_label.getD "" with ⟨cs⟩
            rcases cs with _ | ⟨c, cs⟩
            · exact absurd (by rw [hg] at hlg; exact hlg rfl) (fun _ => by
                rw [hg] at hlg
                exact hlg rfl)
            · simp [String.length]
          omega
    · rw [pickVariant, if_neg hip]
      apply ih hrest
      simpa [hip] using hany

/-- Claim C4 counterexample: a date with a plain MITE entry and an ASW MITE
entry.  The date's most specific (longest) in-port label is "ASW MITE",
but the MITE entry's invalid record carries its own label in the reason —
"In-Port Shore Side Event (MITE)" — not the longest one. -/
theorem parse_rows_inport_reason_not_longest :
    (parse_rows (fun _ => none) "8/1/2025 MITE DRILL\nx\n8/1/2025 ASW MITE" "2025").2.2.map
        (fun r => r.reason)
      = ["In-Port Shore Side Event (MITE)", "In-Port Shore Side Event (ASW MITE)"] ∧
    pickVariant none (classifiedGroup (fun _ => none)
        "8/1/2025 MITE DRILL\nx\n8/1/2025 ASW MITE" "2025" "08/01/2025")
      = some "ASW MITE" ∧
    "In-Port Shore Side Event (MITE)" ≠ "In-Port Shore Side Event (ASW MITE)" := by
  decide

/-- Claim C4 (amended): a date with at least one in-port entry yields zero
valid rows and zero duplicates; every entry of the date becomes an invalid
record — an in-port entry with reason "In-Port Shore Side Event (label)"
carrying its own label, every other entry suppressed or unknown under the
date's most specific (longest) in-port label. -/
theorem parse_rows_inport_day (ms : String → Option String) (text year d : String)
    (h : ∃ e ∈ classifiedGroup ms text year d, e.is_inport = true) :
    ∃ v, pickVariant none (classifiedGroup ms text year d) = some v ∧ v ≠ "" ∧
    (parse_rows ms text year).1.filter (fun r => decide (r.date = d)) = [] ∧
    (parse_rows ms text year).2.1.filter (fun r => decide (r.date = d)) = [] ∧
    (parse_rows ms text year).2.2.filter (fun r => decide (r.date = d))
      = (classifiedGroup ms text year d).map (fun e =>
          if e.is_inport then
            { date := d, raw := e.raw, occ_idx := e.occ_idx,
              ship := some (pyOrS e.inport_label v),
              reason := "In-Port Shore Side Event (" ++ pyOrS e.inport_label v ++ ")" }
          else
            { date := d, raw := e.raw, occ_idx := e.occ_idx,
              ship := some (pyOrS e.ship "UNK"),
              reason := (if e.kind == some "unknown" then "Unknown or Non-Platform Event"
                         else "Suppressed by In-Port Shore Side Event") ++ " (" ++ v ++ ")" }) := by
  have hA : ∀ ce ∈ classifiedGroup ms text year d, ce.is_inport = true →
      optTruthy ce.inport_label = true :=
    classifyEntries_inport_label ms _ 0
  have htr : optTruthy (pickVariant none (classifiedGroup ms text year d)) = true := by
    apply pickVariant_inport_truthy _ hA
    obtain ⟨e, he, hip⟩ := h
    simp only [List.any_eq_true]
    exact ⟨e, he, hip⟩
  obtain ⟨v, hp, hv⟩ : ∃ v, pickVariant none (classifiedGroup ms text year d) = some v ∧ v ≠ "" := by
    rcases hcase : pickVariant none (classifiedGroup ms text year d) with _ | v
    · rw [hcase] at htr
      simp [optTruthy] at htr
    · rw [hcase] at htr
      simp only [optTruthy, decide_eq_true_eq] at htr
      exact ⟨v, rfl, htr⟩
  obtain ⟨hrows, hdups, hskips⟩ := parse_rows_filter_date ms text year d
  have htr' : optTruthy (pickVariant none (classifyEntries ms 0
      ((pass1 (splitLinesLF text) year).filter (fun e => decide (e.date = d))))) = true := htr
  have hp' : pickVariant none (classifyEntries ms 0
      ((pass1 (splitLinesLF text) year).filter (fun e => decide (e.date = d)))) = some v := hp
  refine ⟨v, hp, hv, ?_, ?_, ?_⟩
  · rw [hrows]
    simp [resolveDate, htr']
  · rw [hdups]
    simp [resolveDate, htr']
  · rw [hskips]
    have hsv : optTruthy (some v) = true := by simpa [optTruthy] using hv
    simp only [resolveDate, hp', Option.getD_some, hsv, if_true]
    rfl

/-- Witness for C4's amended theorem on the MITE / ASW MITE date. -/
theorem parse_rows_inport_day_witness :
    ∃ v, pickVariant none (classifiedGroup (fun _ => none)
        "8/1/2025 MITE DRILL\nx\n8/1/2025 ASW MITE" "2025" "08/01/2025") = some v ∧ v ≠ "" ∧
    (parse_rows (fun _ => none) "8/1/2025 MITE DRILL\nx\n8/1/2025 ASW MITE" "2025").1.filter
        (fun r => decide (r.date = "08/01/2025")) = [] ∧
    (parse_rows (fun _ => none) "8/1/2025 MITE DRILL\nx\n8/1/2025 ASW MITE" "2025").2.1.filter
        (fun r => decide (r.date = "08/01/2025")) = [] ∧
    (parse_rows (fun _ => none) "8/1/2025 MITE DRILL\nx\n8/1/2025 ASW MITE" "2025").2.2.filter
        (fun r => decide (r.date = "08/01/2025"))
      = (classifiedGroup (fun _ => none) "8/1/2025 MITE DRILL\nx\n8/1/2025 ASW MITE" "2025"
          "08/01/2025").map (fun e =>
          if e.is_inport then
            { date := "08/01/2025", raw := e.raw, occ_idx := e.occ_idx,
              ship := some (pyOrS e.inport_label v),
              reason := "In-Port Shore Side Event (" ++ pyOrS e.inport_label v ++ ")" }
          else
            { date := "08/01/2025", raw := e.raw, occ_idx := e.occ_idx,
              ship := some (pyOrS e.ship "UNK"),
              reason := (if e.kind == some "unknown" then "Unknown or Non-Platform Event"
                         else "Suppressed by In-Port Shore Side Event") ++ " (" ++ v ++ ")" }) :=
  parse_rows_inport_day (fun _ => none) "8/1/2025 MITE DRILL\nx\n8/1/2025 ASW MITE" "2025"
    "08/01/2025" (by decide)

theorem length_insBy {α : Type} (le : α → α → Bool) (x : α) :
    ∀ l : List α, (insBy le x l).length = l.length + 1 := by
  intro l
  induction l with
  | nil => rfl
  | cons y ys ih =>
    rw [insBy]
    by_cases h : le x y
    · rw [if_pos h]
      rfl
    · rw [if_neg h]
      simp [ih]

theorem mem_insBy {α : Type} (le : α → α → Bool) (x y : α) :
    ∀ l : List α, (y ∈ insBy le x l ↔ y = x ∨ y ∈ l) := by
  intro l
  induction l with
  | nil => simp [insBy]
  | cons z zs ih =>
    rw [insBy]
    by_cases h : le x z
    · rw [if_pos h]
      simp [List.mem_cons]
    · rw [if_neg h]
      simp only [List.mem_cons, ih]
      tauto

theorem sortBy_length {α : Type} (le : α → α → Bool) :
    ∀ l : List α, (sortBy le l).length = l.length := by
  intro l
  induction l with
  | nil => rfl
  | cons x xs ih =>
    show (insBy le x (sortBy le xs)).length = _
    rw [length_insBy, ih]
    rfl

theorem mem_sortBy {α : Type} (le : α → α → Bool) (y : α) :
    ∀ l : List α, (y ∈ sortBy le l ↔ y ∈ l) := by
  intro l
  induction l with
  | nil => simp [sortBy]
  | cons x xs ih =>
    show y ∈ insBy le x (sortBy le xs) ↔ _
    rw [mem_insBy, ih]
    simp [List.mem_cons]

/-- The head of the stable sort by occurrence index is a member with the
smallest occurrence index (Python's `sorted(..., key=occ_idx)[0]`). -/
theorem sortBy_headD_min :
    ∀ l : List CEntry, l ≠ [] → ∀ dflt : CEntry,
      (sortBy occLe l).headD dflt ∈ l ∧
      ∀ y ∈ l, ((sortBy occLe l).headD dflt).occ_idx ≤ y.occ_idx := by
  intro l
  induction l with
  | nil => intro h; exact absurd rfl h
  | cons x rest ih =>
    intro _ dflt
    have hsx : sortBy occLe (x :: rest) = insBy occLe x (sortBy occLe rest) := rfl
    cases hs : sortBy occLe rest with
    | nil =>
      have : rest = [] := by
        have := sortBy_length occLe rest
        rw [hs] at this
        exact List.length_eq_zero.mp this.symm
      subst this
      constructor
      · simp [hsx, hs, insBy]
      · intro y hy
        rcases List.mem_cons.mp hy with rfl | hy
        · simp [hsx, hs, insBy]
        · simp at hy
    | cons z zs =>
      have hrest : rest ≠ [] := by
        intro h0
        rw [h0] at hs
        simp [sortBy] at hs
      obtain ⟨ihmem, ihmin⟩ := ih hrest dflt
      rw [hs] at ihmem ihmin
      simp only [List.headD_cons] at ihmem ihmin
      rw [hsx, hs, insBy]
      by_cases hxz : occLe x z
      · rw [if_pos hxz]
        simp only [List.headD_cons]
        refine ⟨List.mem_cons_self x rest, ?_⟩
        intro y hy
        rcases List.mem_cons.mp hy with rfl | hy
        · exact Nat.le_refl _
        · have h1 : x.occ_idx ≤ z.occ_idx := by
            simpa [occLe] using hxz
          exact Nat.le_trans h1 (ihmin y hy)
      · rw [if_neg hxz]
        simp only [List.headD_cons]
        refine ⟨List.mem_cons_of_mem x ihmem, ?_⟩
        intro y hy
        rcases List.mem_cons.mp hy with rfl | hy
        · have h1 : ¬ y.occ_idx ≤ z.occ_idx := by
            simpa [occLe] using hxz
          omega
        · exact ihmin y hy

/-- Claim C5: on a date without in-port entries whose valid entries name
more than one distinct ship, `parse_rows` prefers mission-tagged entries:
among the mission-tagged valid entries (or all valid entries when none is
tagged) the one with the smallest occurrence index becomes the date's
single valid row, and every remaining valid entry becomes a duplicate
record with reason "Duplicate entry for date". -/
theorem parse_rows_mission_tiebreak (ms : String → Option String)
    (text year d : String) (v0 : CEntry) (vs : List CEntry)
    (hni : optTruthy (pickVariant none (classifiedGroup ms text year d)) = false)
    (hfv : (classifiedGroup ms text year d).filter (fun e => e.kind == some "valid")
      = v0 :: vs)
    (hships : (dedupKeys ((v0 :: vs).map (fun e => e.ship.getD ""))).length ≠ 1) :
    ∃ pool kept,
      pool = (match (v0 :: vs).filter isMission with
              | [] => v0 :: vs
              | m :: t => m :: t) ∧
      kept ∈ pool ∧ (∀ e ∈ pool, kept.occ_idx ≤ e.occ_idx) ∧
      (parse_rows ms text year).1.filter (fun r => decide (r.date = d))
        = [{ date := d, ship := kept.ship, occ_idx := kept.occ_idx }] ∧
      (parse_rows ms text year).2.1.filter (fun r => decide (r.date = d))
        = ((v0 :: vs).filter (fun e => decide (e ≠ kept))).map (fun e =>
            { date := d, ship := e.ship, occ_idx := e.occ_idx,
              reason := "Duplicate entry for date" }) := by
  obtain ⟨hrows, hdups, _⟩ := parse_rows_filter_date ms text year d
  have hni' : optTruthy (pickVariant none (classifyEntries ms 0
      ((pass1 (splitLinesLF text) year).filter (fun e => decide (e.date = d))))) = false := hni
  have hfv' : (classifyEntries ms 0 ((pass1 (splitLinesLF text) year).filter
      (fun e => decide (e.date = d)))).filter (fun e => e.kind == some "valid")
      = v0 :: vs := hfv
  cases hmv : (v0 :: vs).filter isMission with
  | nil =>
    refine ⟨v0 :: vs, (sortBy occLe (v0 :: vs)).headD v0, rfl, ?_, ?_, ?_, ?_⟩
    · exact (sortBy_headD_min (v0 :: vs) (by simp) v0).1
    · exact (sortBy_headD_min (v0 :: vs) (by simp) v0).2
    · rw [hrows]
      simp only [resolveDate, hni', Bool.false_eq_true, if_false, hfv', hmv, if_neg hships]
    · rw [hdups]
      simp only [resolveDate, hni', Bool.false_eq_true, if_false, hfv', hmv, if_neg hships]
  | cons m t =>
    refine ⟨m :: t, (sortBy occLe (m :: t)).headD m, rfl, ?_, ?_, ?_, ?_⟩
    · exact (sortBy_headD_min (m :: t) (by simp) m).1
    · exact (sortBy_headD_min (m :: t) (by simp) m).2
    · rw [hrows]
      simp only [resolveDate, hni', Bool.false_eq_true, if_false, hfv', hmv, if_neg hships]
    · rw [hdups]
      simp only [resolveDate, hni', Bool.false_eq_true, if_false, hfv', hmv, if_neg hships]

/-- Witness for C5 on the ALPHA / BRAVO (M1) example: BRAVO is kept. -/
theorem parse_rows_mission_tiebreak_witness :
    (∃ pool kept,
      pool = (match ([cAlpha, cBravo] : List CEntry).filter isMission with
              | [] => [cAlpha, cBravo]
              | m :: t => m :: t) ∧
      kept ∈ pool ∧ (∀ e ∈ pool, kept.occ_idx ≤ e.occ_idx) ∧
      (parse_rows (msRegistry ["ALPHA", "BRAVO"])
          "8/1/2025 ALPHA\nx\n8/1/2025 BRAVO (M1)" "2025").1.filter
          (fun r => decide (r.date = "08/01/2025"))
        = [{ date := "08/01/2025", ship := kept.ship, occ_idx := kept.occ_idx }] ∧
      (parse_rows (msRegistry ["ALPHA", "BRAVO"])
          "8/1/2025 ALPHA\nx\n8/1/2025 BRAVO (M1)" "2025").2.1.filter
          (fun r => decide (r.date = "08/01/2025"))
        = (([cAlpha, cBravo] : List CEntry).filter (fun e => decide (e ≠ kept))).map (fun e =>
            { date := "08/01/2025", ship := e.ship, occ_idx := e.occ_idx,
              reason := "Duplicate entry for date" })) ∧
    (parse_rows (msRegistry ["ALPHA", "BRAVO"])
        "8/1/2025 ALPHA\nx\n8/1/2025 BRAVO (M1)" "2025").1
      = [{ date := "08/01/2025", ship := some "BRAVO", occ_idx := 2 }] :=
  ⟨parse_rows_mission_tiebreak (msRegistry ["ALPHA", "BRAVO"])
    "8/1/2025 ALPHA\nx\n8/1/2025 BRAVO (M1)" "2025" "08/01/2025" cAlpha [cBravo]
    (by decide) (by decide) (by decide), by decide⟩

theorem mem_insSortedNat (x y : Nat) :
    ∀ l : List Nat, (y ∈ insSortedNat x l ↔ y = x ∨ y ∈ l) := by
  intro l
  induction l with
  | nil => simp [insSortedNat]
  | cons z zs ih =>
    rw [insSortedNat]
    by_cases h1 : x < z
    · rw [if_pos h1]
      simp [List.mem_cons]
    · rw [if_neg h1]
      by_cases h2 : x = z
      · rw [if_pos h2]
        subst h2
        simp only [List.mem_cons]
        tauto
      · rw [if_neg h2]
        simp only [List.mem_cons, ih]
        tauto

theorem pairwise_insSortedNat (x : Nat) :
    ∀ l : List Nat, l.Pairwise (· < ·) → (insSortedNat x l).Pairwise (· < ·) := by
  intro l
  induction l with
  | nil => intro _; simp [insSortedNat]
  | cons z zs ih =>
    intro hp
    obtain ⟨hz, hzs⟩ := List.pairwise_cons.mp hp
    rw [insSortedNat]
    by_cases h1 : x < z
    · rw [if_pos h1]
      refine List.pairwise_cons.mpr ⟨?_, hp⟩
      intro y hy
      rcases List.mem_cons.mp hy with rfl | hy
      · exact h1
      · exact Nat.lt_trans h1 (hz y hy)
    · rw [if_neg h1]
      by_cases h2 : x = z
      · rw [if_pos h2]
        exact hp
      · rw [if_neg h2]
        refine List.pairwise_cons.mpr ⟨?_, ih hzs⟩
        intro y hy
        rcases (mem_insSortedNat x y zs).mp hy with rfl | hy
        · omega
        · exact hz y hy

theorem mem_sortedDedup (x : Nat) :
    ∀ l : List Nat, (x ∈ sortedDedup l ↔ x ∈ l) := by
  intro l
  induction l with
  | nil => simp [sortedDedup]
  | cons y ys ih =>
    show x ∈ insSortedNat y (sortedDedup ys) ↔ _
    rw [mem_insSortedNat, ih]
    simp [List.mem_cons]

theorem pairwise_sortedDedup :
    ∀ l : List Nat, (sortedDedup l).Pairwise (· < ·) := by
  intro l
  induction l with
  | nil => simp [sortedDedup]
  | cons y ys ih => exact pairwise_insSortedNat y (sortedDedup ys) ih

/-- The run walk on a strictly increasing tail: its periods cover exactly
the interval `[start, prev]` plus the remaining dates, are pairwise
separated by a gap of at least one day, and are well-formed. -/
theorem walkRuns_props :
    ∀ (l : List Nat) (start prev : Nat), start ≤ prev →
      (prev :: l).Pairwise (· < ·) →
      ((∀ x, (∃ ab ∈ walkRuns start prev l, ab.1 ≤ x ∧ x ≤ ab.2)
          ↔ ((start ≤ x ∧ x ≤ prev) ∨ x ∈ l)) ∧
       (walkRuns start prev l).Pairwise (fun a b => a.2 + 1 < b.1) ∧
       (∀ ab ∈ walkRuns start prev l, start ≤ ab.1 ∧ ab.1 ≤ ab.2)) := by
  intro l
  induction l with
  | nil =>
    intro start prev hsp _
    refine ⟨?_, by simp [walkRuns], ?_⟩
    · intro x
      simp only [walkRuns, List.mem_singleton, List.not_mem_nil, or_false]
      constructor
      · rintro ⟨ab, rfl, h1, h2⟩
        exact ⟨h1, h2⟩
      · rintro ⟨h1, h2⟩
        exact ⟨(start, prev), rfl, h1, h2⟩
    · intro ab hab
      have hab' : ab = (start, prev) := by simpa [walkRuns] using hab
      subst hab'
      exact ⟨Nat.le_refl _, hsp⟩
  | cons d rest ih =>
    intro start prev hsp hpw
    obtain ⟨hgt, hpw'⟩ := List.pairwise_cons.mp hpw
    have hpd : prev < d := hgt d (List.mem_cons_self d rest)
    by_cases hd : d = prev + 1
    · rw [walkRuns, if_pos hd]
      have hsd : start ≤ d := by omega
      obtain ⟨ihcov, ihpw, ihwf⟩ := ih start d hsd hpw'
      refine ⟨?_, ihpw, ihwf⟩
      intro x
      rw [ihcov]
      simp only [List.mem_cons]
      constructor
      · rintro (⟨hx1, hx2⟩ | hx)
        · by_cases hxp : x ≤ prev
          · exact Or.inl ⟨hx1, hxp⟩
          · exact Or.inr (Or.inl (by omega))
        · exact Or.inr (Or.inr hx)
      · rintro (⟨hx1, hx2⟩ | rfl | hx)
        · exact Or.inl ⟨hx1, by omega⟩
        · exact Or.inl ⟨by omega, by omega⟩
        · exact Or.inr hx
    · rw [walkRuns, if_neg hd]
      have hgap : prev + 1 < d := by omega
      obtain ⟨ihcov, ihpw, ihwf⟩ := ih d d (Nat.le_refl d) hpw'
      refine ⟨?_, ?_, ?_⟩
      · intro x
        constructor
        · rintro ⟨ab, hab, hx1, hx2⟩
          rcases List.mem_cons.mp hab with rfl | hab
          · exact Or.inl ⟨hx1, hx2⟩
          · rcases (ihcov x).mp ⟨ab, hab, hx1, hx2⟩ with ⟨h1, h2⟩ | h
            · exact Or.inr (List.mem_cons.mpr (Or.inl (by omega)))
            · exact Or.inr (List.mem_cons.mpr (Or.inr h))
        · rintro (⟨hx1, hx2⟩ | hx)
          · exact ⟨(start, prev), List.mem_cons_self _ _, hx1, hx2⟩
          · rcases List.mem_cons.mp hx with rfl | hx
            · obtain ⟨ab, hab, h1, h2⟩ := (ihcov x).mpr (Or.inl ⟨Nat.le_refl _, Nat.le_refl _⟩)
              exact ⟨ab, List.mem_cons_of_mem _ hab, h1, h2⟩
            · obtain ⟨ab, hab, h1, h2⟩ := (ihcov x).mpr (Or.inr hx)
              exact ⟨ab, List.mem_cons_of_mem _ hab, h1, h2⟩
      · refine List.pairwise_cons.mpr ⟨?_, ihpw⟩
        intro q hq
        have := (ihwf q hq).1
        omega
      · intro ab hab
        rcases List.mem_cons.mp hab with rfl | hab
        · exact ⟨Nat.le_refl _, hsp⟩
        · obtain ⟨h1, h2⟩ := ihwf ab hab
          exact ⟨by omega, h2⟩

theorem mem_optMap {α β : Type} (f : α → Option β) :
    ∀ (l : List α) (l' : List β), optMap f l = some l' →
      ∀ b, (b ∈ l' ↔ ∃ a ∈ l, f a = some b) := by
  intro l
  induction l with
  | nil =>
    intro l' h b
    simp only [optMap, Option.some.injEq] at h
    subst h
    simp
  | cons a as ih =>
    intro l' h b
    rw [optMap] at h
    rcases hfa : f a with _ | b0 <;> rw [hfa] at h
    · simp at h
    · rcases hrec : optMap f as with _ | bs <;> rw [hrec] at h
      · simp at h
      · simp only [Option.some.injEq] at h
        subst h
        constructor
        · intro hb
          rcases List.mem_cons.mp hb with rfl | hb
          · exact ⟨a, List.mem_cons_self a as, hfa⟩
          · obtain ⟨a2, ha2, hfa2⟩ := (ih bs hrec b).mp hb
            exact ⟨a2, List.mem_cons_of_mem a ha2, hfa2⟩
        · rintro ⟨a2, ha2, hfa2⟩
          rcases List.mem_cons.mp ha2 with rfl | ha2
          · rw [hfa] at hfa2
            rw [List.mem_cons]
            exact Or.inl (Option.some.inj hfa2).symm
          · exact List.mem_cons_of_mem b0 ((ih bs hrec b).mpr ⟨a2, ha2, hfa2⟩)

theorem groupPairs_filter_ship (prs : List (Option String × Nat)) (s : Option String) :
    (groupPairs prs).filter (fun p => decide (p.ship = s))
      = (runsOf (sortedDedup ((prs.filter (fun pr => pr.1 == s)).map (fun pr => pr.2)))).map
          (fun ab => { ship := s, start := ab.1, stop := ab.2 }) := by
  have hF : ∀ s' : Option String, ∀ p ∈ (runsOf (sortedDedup
        ((prs.filter (fun pr => pr.1 == s')).map (fun pr => pr.2)))).map
        (fun ab => ({ ship := s', start := ab.1, stop := ab.2 } : Period)), p.ship = s' := by
    intro s' p hp
    obtain ⟨ab, _, rfl⟩ := List.mem_map.mp hp
    rfl
  have hkey := filter_flatMap_eq (dedupKeys (prs.map (fun pr => pr.1)))
    (fun s' => (runsOf (sortedDedup ((prs.filter (fun pr => pr.1 == s')).map
      (fun pr => pr.2)))).map (fun ab => ({ ship := s', start := ab.1, stop := ab.2 } : Period)))
    Period.ship hF (nodup_dedupKeys _) s
  show (List.flatMap _ _).filter _ = _
  rw [hkey]
  by_cases hs : s ∈ dedupKeys (prs.map (fun pr => pr.1))
  · rw [if_pos hs]
  · rw [if_neg hs]
    have hnil : prs.filter (fun pr => pr.1 == s) = [] := by
      rw [List.filter_eq_nil_iff]
      intro pr hpr hbeq
      have : pr.1 = s := by simpa using hbeq
      rw [mem_dedupKeys] at hs
      exact hs (this ▸ List.mem_map_of_mem (fun pr => pr.1) hpr)
    rw [hnil]
    rfl

/-- Claim C6: for every row set accepted by `group_by_ship` and every ship,
the union of day numbers covered by that ship's emitted periods is exactly
the set of day numbers of that ship's input rows; the periods are pairwise
separated by more than one day (never overlapping or touching, so each
covered day lies in exactly one period and a one-day gap always splits),
and each period is well-formed. -/
theorem group_by_ship_periods (rows : List ValidRow) (ps : List Period)
    (h : group_by_ship rows = some ps) (s : Option String) :
    (∀ x : Nat, (∃ p ∈ ps.filter (fun p => decide (p.ship = s)), p.start ≤ x ∧ x ≤ p.stop)
        ↔ ∃ r ∈ rows, r.ship = s ∧ toDayNumber r.date = some x) ∧
    (ps.filter (fun p => decide (p.ship = s))).Pairwise (fun p q => p.stop + 1 < q.start) ∧
    (∀ p ∈ ps.filter (fun p => decide (p.ship = s)), p.start ≤ p.stop) := by
  unfold group_by_ship at h
  rcases hopt : optMap (fun r => (toDayNumber r.date).map fun n => (r.ship, n)) rows
    with _ | prs <;> rw [hopt] at h
  · simp at h
  · simp only [Option.some.injEq] at h
    subst h
    have hmm := mem_optMap (fun r => (toDayNumber r.date).map fun n => (r.ship, n)) rows prs hopt
    have hmemx : ∀ x : Nat, ((s, x) ∈ prs ↔ ∃ r ∈ rows, r.ship = s ∧ toDayNumber r.date = some x) := by
      intro x
      rw [hmm (s, x)]
      constructor
      · rintro ⟨r, hr, hfr⟩
        have hfr' : Option.map (fun n => (r.ship, n)) (toDayNumber r.date) = some (s, x) := hfr
        rcases htd : toDayNumber r.date with _ | n <;> rw [htd] at hfr'
        · simp at hfr'
        · simp only [Option.map_some', Option.some.injEq, Prod.mk.injEq] at hfr'
          obtain ⟨hs1, hs2⟩ := hfr'
          exact ⟨r, hr, hs1, by rw [htd, hs2]⟩
      · rintro ⟨r, hr, hship, htd⟩
        refine ⟨r, hr, ?_⟩
        show Option.map (fun n => (r.ship, n)) (toDayNumber r.date) = some (s, x)
        rw [htd]
        simp [hship]
    rw [groupPairs_filter_ship prs s]
    have hxdl : ∀ x, (x ∈ (prs.filter (fun pr => pr.1 == s)).map (fun pr => pr.2)
        ↔ (s, x) ∈ prs) := by
      intro x
      simp only [List.mem_map, List.mem_filter]
      constructor
      · rintro ⟨pr, ⟨hpr, hbeq⟩, rfl⟩
        have hpr1 : pr.1 = s := by simpa using hbeq
        have : pr = (s, pr.2) := by
          rw [← hpr1]
        rw [← this]
        exact hpr
      · intro hpr
        exact ⟨(s, x), ⟨hpr, by simp⟩, rfl⟩
    cases hds : sortedDedup ((prs.filter (fun pr => pr.1 == s)).map (fun pr => pr.2)) with
    | nil =>
      refine ⟨?_, by simp [runsOf], by simp [runsOf]⟩
      intro x
      constructor
      · rintro ⟨p, hp, _⟩
        simp [runsOf] at hp
      · intro hex
        have hx1 : (s, x) ∈ prs := (hmemx x).mpr hex
        have hx2 : x ∈ (prs.filter (fun pr => pr.1 == s)).map (fun pr => pr.2) :=
          (hxdl x).mpr hx1
        rw [← mem_sortedDedup, hds] at hx2
        simp at hx2
    | cons d0 drest =>
      have hpw : (d0 :: drest).Pairwise (· < ·) := by
        rw [← hds]
        exact pairwise_sortedDedup _
      obtain ⟨wcov, wpw, wwf⟩ := walkRuns_props drest d0 d0 (Nat.le_refl d0) hpw
      have hruns : runsOf (d0 :: drest) = walkRuns d0 d0 drest := rfl
      refine ⟨?_, ?_, ?_⟩
      · intro x
        rw [hruns]
        constructor
        · rintro ⟨p, hp, hx1, hx2⟩
          obtain ⟨ab, hab, rfl⟩ := List.mem_map.mp hp
          have hcov : (d0 ≤ x ∧ x ≤ d0) ∨ x ∈ drest := (wcov x).mp ⟨ab, hab, hx1, hx2⟩
          have hxmem : x ∈ d0 :: drest := by
            rcases hcov with ⟨h1, h2⟩ | h
            · exact List.mem_cons.mpr (Or.inl (by omega))
            · exact List.mem_cons.mpr (Or.inr h)
          rw [← hds, mem_sortedDedup] at hxmem
          exact (hmemx x).mp ((hxdl x).mp hxmem)
        · intro hex
          have hx1 : (s, x) ∈ prs := (hmemx x).mpr hex
          have hx2 : x ∈ (prs.filter (fun pr => pr.1 == s)).map (fun pr => pr.2) :=
            (hxdl x).mpr hx1
          rw [← mem_sortedDedup, hds] at hx2
          have hcov : (d0 ≤ x ∧ x ≤ d0) ∨ x ∈ drest := by
            rcases List.mem_cons.mp hx2 with rfl | hx
            · exact Or.inl ⟨Nat.le_refl _, Nat.le_refl _⟩
            · exact Or.inr hx
          obtain ⟨ab, hab, h1, h2⟩ := (wcov x).mpr hcov
          exact ⟨{ ship := s, start := ab.1, stop := ab.2 },
            List.mem_map_of_mem _ hab, h1, h2⟩
      · rw [hruns]
        exact List.pairwise_map.mpr (by
          refine wpw.imp ?_
          intro a b hab
          exact hab)
      · rw [hruns]
        intro p hp
        obtain ⟨ab, hab, rfl⟩ := List.mem_map.mp hp
        exact (wwf ab hab).2

/-- Witness for C6 on the 8/1, 8/2, 8/4 example: periods 8/1–8/2 and
8/4–8/4. -/
theorem group_by_ship_periods_witness :
    group_by_ship [⟨"08/01/2025", some "CHAFEE", 1⟩, ⟨"08/02/2025", some "CHAFEE", 1⟩,
        ⟨"08/04/2025", some "CHAFEE", 1⟩]
      = some [⟨some "CHAFEE", 739769, 739770⟩, ⟨some "CHAFEE", 739772, 739772⟩] ∧
    ((∀ x : Nat, (∃ p ∈ ([⟨some "CHAFEE", 739769, 739770⟩,
          ⟨some "CHAFEE", 739772, 739772⟩] : List Period).filter
            (fun p => decide (p.ship = some "CHAFEE")), p.start ≤ x ∧ x ≤ p.stop)
        ↔ ∃ r ∈ ([⟨"08/01/2025", some "CHAFEE", 1⟩, ⟨"08/02/2025", some "CHAFEE", 1⟩,
            ⟨"08/04/2025", some "CHAFEE", 1⟩] : List ValidRow),
            r.ship = some "CHAFEE" ∧ toDayNumber r.date = some x) ∧
     (([⟨some "CHAFEE", 739769, 739770⟩, ⟨some "CHAFEE", 739772, 739772⟩] : List Period).filter
        (fun p => decide (p.ship = some "CHAFEE"))).Pairwise (fun p q => p.stop + 1 < q.start) ∧
     (∀ p ∈ ([⟨some "CHAFEE", 739769, 739770⟩, ⟨some "CHAFEE", 739772, 739772⟩] : List Period).filter
        (fun p => decide (p.ship = some "CHAFEE")), p.start ≤ p.stop)) :=
  ⟨by decide,
   group_by_ship_periods
     [⟨"08/01/2025", some "CHAFEE", 1⟩, ⟨"08/02/2025", some "CHAFEE", 1⟩,
      ⟨"08/04/2025", some "CHAFEE", 1⟩]
     [⟨some "CHAFEE", 739769, 739770⟩, ⟨some "CHAFEE", 739772, 739772⟩]
     (by decide) (some "CHAFEE")⟩

theorem dget_dset_self (d : PyDict) (k : String) (v : PyVal) :
    dget (dset d k v) k = some v :=
  aget_aset_self d k v

theorem dget_dset_ne (d : PyDict) (k k' : String) (v : PyVal) (h : k' ≠ k) :
    dget (dset d k' v) k = dget d k :=
  aget_aset_ne d k k' v h

theorem dset_eq_of_dget (d : PyDict) (k : String) (v : PyVal)
    (h : dget d k = some v) : dset d k v = d :=
  aset_eq_of_aget d k v h

theorem dhas_dset_ne (d : PyDict) (k k' : String) (v : PyVal) (h : k' ≠ k) :
    dhas (dset d k' v) k = dhas d k := by
  simp only [dhas, dget_dset_ne d k k' v h]

theorem getSubDict_dset_ne (e : Event) (k k' : String) (v : PyVal) (h : k' ≠ k) :
    getSubDict (dset e k' v) k = getSubDict e k := by
  simp only [getSubDict, dget_dset_ne e k k' v h]

/-- Re-applying the same key-distinct update block to a dict is a no-op. -/
theorem dupdate_idem (kvs : List (String × PyVal)) :
    ∀ d : PyDict, (kvs.map Prod.fst).Nodup →
      dupdate (dupdate d kvs) kvs = dupdate d kvs := by
  induction kvs with
  | nil => intro d _; rfl
  | cons kv rest ih =>
    intro d hnd
    rw [List.map_cons] at hnd
    obtain ⟨hk, hnd'⟩ := List.nodup_cons.mp hnd
    have hne : ∀ kv' ∈ rest, kv'.1 ≠ kv.1 := by
      intro kv' hkv'
      intro hc
      exact hk (hc ▸ List.mem_map_of_mem Prod.fst hkv')
    have step : ∀ d' : PyDict, dupdate d' (kv :: rest) = dupdate (dset d' kv.1 kv.2) rest := by
      intro d'
      rfl
    rw [step, step]
    have hgd : dget (dupdate (dset d kv.1 kv.2) rest) kv.1 = some kv.2 := by
      rw [dget_dupdate_ne _ _ _ hne]
      exact dget_dset_self d kv.1 kv.2
    rw [dset_eq_of_dget _ _ _ hgd]
    exact ih (dset d kv.1 kv.2) hnd'

theorem getD_set_ne {α : Type} (x d : α) :
    ∀ (l : List α) (i j : Nat), i ≠ j → (l.set i x).getD j d = l.getD j d := by
  intro l
  induction l with
  | nil => intro i j _; simp
  | cons a as ih =>
    intro i j hij
    cases i with
    | zero =>
      cases j with
      | zero => exact absurd rfl hij
      | succ j' => simp [List.set]
    | succ i' =>
      cases j with
      | zero => simp [List.set]
      | succ j' =>
        simp only [List.set, List.getD_cons_succ]
        exact ih i' j' (fun h => hij (by rw [h]))

theorem getD_set_self {α : Type} (x d : α) :
    ∀ (l : List α) (i : Nat), i < l.length → (l.set i x).getD i d = x := by
  intro l
  induction l with
  | nil => intro i h; simp at h
  | cons a as ih =>
    intro i h
    cases i with
    | zero => simp [List.set]
    | succ i' =>
      simp only [List.set, List.getD_cons_succ]
      exact ih i' (by simpa using h)

theorem set_getD_self {α : Type} (d : α) :
    ∀ (l : List α) (i : Nat), l.set i (l.getD i d) = l := by
  intro l
  induction l with
  | nil => intro i; rfl
  | cons a as ih =>
    intro i
    cases i with
    | zero => simp [List.set]
    | succ i' =>
      simp only [List.set, List.getD_cons_succ]
      rw [ih i']

theorem dhas_dset_self (d : PyDict) (k : String) (v : PyVal) :
    dhas (dset d k v) k = true := by
  simp [dhas, dget_dset_self]

theorem dget_inplaceKeepValid_ne (s r src : Option String) (e : Event) (k : String)
    (h1 : k ≠ "override") (h2 : k ≠ "final_classification")
    (h3 : k ≠ "status") (h4 : k ≠ "status_reason") :
    dget (inplaceKeepValid s r src e) k = dget e k := by
  simp only [inplaceKeepValid]
  split
  · rw [dget_dset_ne _ _ _ _ (Ne.symm h4), dget_dset_ne _ _ _ _ (Ne.symm h3),
        dget_dset_ne _ _ _ _ (Ne.symm h2), dget_dset_ne _ _ _ _ (Ne.symm h1)]
  · rw [dget_dset_ne _ _ _ _ (Ne.symm h2), dget_dset_ne _ _ _ _ (Ne.symm h1)]

theorem dget_inplaceKeepInvalid_ne (s r src : Option String) (e : Event) (k : String)
    (h1 : k ≠ "override") (h2 : k ≠ "final_classification") :
    dget (inplaceKeepInvalid s r src e) k = dget e k := by
  simp only [inplaceKeepInvalid]
  rw [dget_dset_ne _ _ _ _ (Ne.symm h2), dget_dset_ne _ _ _ _ (Ne.symm h1)]

theorem sig_inplaceKeepValid (s r src : Option String) (e : Event) :
    make_event_signature (inplaceKeepValid s r src e) = make_event_signature e := by
  refine sig_eq_of_fields _ _ ?_ ?_ ?_ ?_ <;>
    exact dget_inplaceKeepValid_ne s r src e _ (by decide) (by decide) (by decide) (by decide)

theorem sig_inplaceKeepInvalid (s r src : Option String) (e : Event) :
    make_event_signature (inplaceKeepInvalid s r src e) = make_event_signature e := by
  refine sig_eq_of_fields _ _ ?_ ?_ ?_ ?_ <;>
    exact dget_inplaceKeepInvalid_ne s r src e _ (by decide) (by decide)

theorem inplaceKeepValid_facts (s r src : Option String) (e : Event) :
    dget (inplaceKeepValid s r src e) "override"
      = some (.dict (dupdate (getSubDict e "override")
          [("status", optPy s), ("reason", optPy r), ("source", optPy src)])) ∧
    dget (inplaceKeepValid s r src e) "final_classification"
      = some (.dict (dupdate (getSubDict e "final_classification")
          [("is_valid", .bool true), ("reason", optPy r), ("source", .str "override")])) ∧
    dhas (inplaceKeepValid s r src e) "status" = dhas e "status" ∧
    (dhas e "status" = true →
      dget (inplaceKeepValid s r src e) "status" = some (.str (pyOrS s "valid")) ∧
      dget (inplaceKeepValid s r src e) "status_reason" = some (optPy r)) := by
  refine ⟨?_, ?_, ?_, ?_⟩
  · simp only [inplaceKeepValid]
    split
    · rw [dget_dset_ne _ _ _ _ (by decide), dget_dset_ne _ _ _ _ (by decide),
          dget_dset_ne _ _ _ _ (by decide)]
      exact dget_dset_self _ _ _
    · rw [dget_dset_ne _ _ _ _ (by decide)]
      exact dget_dset_self _ _ _
  · simp only [inplaceKeepValid]
    rw [getSubDict_dset_ne _ _ _ _ (by decide)]
    split
    · rw [dget_dset_ne _ _ _ _ (by decide), dget_dset_ne _ _ _ _ (by decide)]
      exact dget_dset_self _ _ _
    · exact dget_dset_self _ _ _
  · simp only [inplaceKeepValid]
    split
    · rename_i hcond
      rw [dhas_dset_ne _ _ _ _ (by decide), dhas_dset_self]
      rw [dhas_dset_ne _ _ _ _ (by decide), dhas_dset_ne _ _ _ _ (by decide)] at hcond
      exact hcond.symm
    · rename_i hcond
      rw [dhas_dset_ne _ _ _ _ (by decide), dhas_dset_ne _ _ _ _ (by decide)]
  · intro hst
    constructor
    · simp only [inplaceKeepValid]
      split
      · rw [dget_dset_ne _ _ _ _ (by decide)]
        exact dget_dset_self _ _ _
      · rename_i hcond
        rw [dhas_dset_ne _ _ _ _ (by decide), dhas_dset_ne _ _ _ _ (by decide)] at hcond
        exact absurd hst hcond
    · simp only [inplaceKeepValid]
      split
      · exact dget_dset_self _ _ _
      · rename_i hcond
        rw [dhas_dset_ne _ _ _ _ (by decide), dhas_dset_ne _ _ _ _ (by decide)] at hcond
        exact absurd hst hcond

theorem inplaceKeepValid_idem (s r src : Option String) (e : Event) :
    inplaceKeepValid s r src (inplaceKeepValid s r src e) = inplaceKeepValid s r src e := by
  obtain ⟨f1, f2, f3, f4⟩ := inplaceKeepValid_facts s r src e
  set E := inplaceKeepValid s r src e with hE
  have g1 : getSubDict E "override" = dupdate (getSubDict e "override")
      [("status", optPy s), ("reason", optPy r), ("source", optPy src)] := by
    simp only [getSubDict, f1]
  have g2 : getSubDict E "final_classification" = dupdate (getSubDict e "final_classification")
      [("is_valid", .bool true), ("reason", optPy r), ("source", .str "override")] := by
    simp only [getSubDict, f2]
  have hidem1 : dupdate (dupdate (getSubDict e "override")
      [("status", optPy s), ("reason", optPy r), ("source", optPy src)])
      [("status", optPy s), ("reason", optPy r), ("source", optPy src)]
      = dupdate (getSubDict e "override")
      [("status", optPy s), ("reason", optPy r), ("source", optPy src)] :=
    dupdate_idem _ _ (by simp)
  have hidem2 : dupdate (dupdate (getSubDict e "final_classification")
      [("is_valid", .bool true), ("reason", optPy r), ("source", .str "override")])
      [("is_valid", .bool true), ("reason", optPy r), ("source", .str "override")]
      = dupdate (getSubDict e "final_classification")
      [("is_valid", .bool true), ("reason", optPy r), ("source", .str "override")] :=
    dupdate_idem _ _ (by simp)
  simp only [inplaceKeepValid]
  rw [g1, hidem1, dset_eq_of_dget _ _ _ f1]
  rw [g2, hidem2, dset_eq_of_dget _ _ _ f2]
  rw [f3]
  by_cases hst : dhas e "status"
  · rw [if_pos hst]
    obtain ⟨g4a, g4b⟩ := f4 hst
    rw [dset_eq_of_dget _ _ _ g4a, dset_eq_of_dget _ _ _ g4b]
  · rw [if_neg (by simpa using hst)]

theorem inplaceKeepInvalid_facts (s r src : Option String) (e : Event) :
    dget (inplaceKeepInvalid s r src e) "override"
      = some (.dict (dupdate (getSubDict e "override")
          [("status", optPy s), ("reason", optPy r), ("source", optPy src)])) ∧
    dget (inplaceKeepInvalid s r src e) "final_classification"
      = some (.dict (dupdate (getSubDict e "final_classification")
          [("is_valid", .bool false), ("reason", optPy r), ("source", .str "override")])) := by
  constructor
  · simp only [inplaceKeepInvalid]
    rw [dget_dset_ne _ _ _ _ (by decide)]
    exact dget_dset_self _ _ _
  · simp only [inplaceKeepInvalid]
    rw [getSubDict_dset_ne _ _ _ _ (by decide)]
    exact dget_dset_self _ _ _

theorem inplaceKeepInvalid_idem (s r src : Option String) (e : Event) :
    inplaceKeepInvalid s r src (inplaceKeepInvalid s r src e)
      = inplaceKeepInvalid s r src e := by
  obtain ⟨f1, f2⟩ := inplaceKeepInvalid_facts s r src e
  set E := inplaceKeepInvalid s r src e with hE
  have g1 : getSubDict E "override" = dupdate (getSubDict e "override")
      [("status", optPy s), ("reason", optPy r), ("source", optPy src)] := by
    simp only [getSubDict, f1]
  have g2 : getSubDict E "final_classification" = dupdate (getSubDict e "final_classification")
      [("is_valid", .bool false), ("reason", optPy r), ("source", .str "override")] := by
    simp only [getSubDict, f2]
  have hidem1 : dupdate (dupdate (getSubDict e "override")
      [("status", optPy s), ("reason", optPy r), ("source", optPy src)])
      [("status", optPy s), ("reason", optPy r), ("source", optPy src)]
      = dupdate (getSubDict e "override")
      [("status", optPy s), ("reason", optPy r), ("source", optPy src)] :=
    dupdate_idem _ _ (by simp)
  have hidem2 : dupdate (dupdate (getSubDict e "final_classification")
      [("is_valid", .bool false), ("reason", optPy r), ("source", .str "override")])
      [("is_valid", .bool false), ("reason", optPy r), ("source", .str "override")]
      = dupdate (getSubDict e "final_classification")
      [("is_valid", .bool false), ("reason", optPy r), ("source", .str "override")] :=
    dupdate_idem _ _ (by simp)
  simp only [inplaceKeepInvalid]
  rw [g1, hidem1, dset_eq_of_dget _ _ _ f1]
  rw [g2, hidem2, dset_eq_of_dget _ _ _ f2]

theorem aget_foldl_aset_notmem {α : Type} (k : String) :
    ∀ (pairs : List (String × α)) (init : List (String × α)),
      k ∉ pairs.map Prod.fst →
      aget (pairs.foldl (fun acc kv => aset acc kv.1 kv.2) init) k = aget init k := by
  intro pairs
  induction pairs with
  | nil => intro init _; rfl
  | cons kv rest ih =>
    intro init hk
    rw [List.map_cons] at hk
    simp only [List.mem_cons] at hk
    push_neg at hk
    rw [List.foldl_cons, ih _ hk.2]
    exact aget_aset_ne init k kv.1 kv.2 (Ne.symm hk.1)

theorem aget_foldl_aset_mem {α : Type} (k : String) (x : α) :
    ∀ (pairs : List (String × α)) (init : List (String × α)),
      (pairs.map Prod.fst).Nodup → (k, x) ∈ pairs →
      aget (pairs.foldl (fun acc kv => aset acc kv.1 kv.2) init) k = some x := by
  intro pairs
  induction pairs with
  | nil => intro init _ hm; simp at hm
  | cons kv rest ih =>
    intro init hnd hm
    rw [List.map_cons] at hnd
    obtain ⟨hk, hnd'⟩ := List.nodup_cons.mp hnd
    rcases List.mem_cons.mp hm with rfl | hm
    · rw [List.foldl_cons]
      rw [aget_foldl_aset_notmem _ rest _ (by simpa using hk)]
      exact aget_aset_self init k x
    · rw [List.foldl_cons]
      exact ih _ hnd' hm

theorem getD_lt {α : Type} (d : α) :
    ∀ (l : List α) (i : Nat), ∀ h : i < l.length, l.getD i d = l[i] := by
  intro l
  induction l with
  | nil => intro i h; simp at h
  | cons a as ih =>
    intro i h
    cases i with
    | zero => rfl
    | succ i' => exact ih i' (by simpa using h)

theorem buildSigMap_eq (v iv : List Event) :
    buildSigMap v iv
      = ((v.enum.map (fun p => (make_event_signature p.2, (Loc.valid, p.1))))
          ++ (iv.enum.map (fun p => (make_event_signature p.2, (Loc.invalid, p.1))))).foldl
          (fun acc kv => aset acc kv.1 kv.2) [] := by
  rw [List.foldl_append, List.foldl_map, List.foldl_map]
  rfl

theorem sigPairs_keys (v iv : List Event) :
    ((v.enum.map (fun p => (make_event_signature p.2, (Loc.valid, p.1))))
        ++ (iv.enum.map (fun p => (make_event_signature p.2, (Loc.invalid, p.1))))).map Prod.fst
      = (v ++ iv).map make_event_signature := by
  rw [List.map_append, List.map_append, List.map_map, List.map_map]
  have h1 : (Prod.fst ∘ fun p : Nat × Event => (make_event_signature p.2, (Loc.valid, p.1)))
      = make_event_signature ∘ Prod.snd := rfl
  have h2 : (Prod.fst ∘ fun p : Nat × Event => (make_event_signature p.2, (Loc.invalid, p.1)))
      = make_event_signature ∘ Prod.snd := rfl
  rw [h1, h2, ← List.map_map, ← List.map_map, List.enum_map_snd, List.enum_map_snd]

theorem getD_mem_enumFrom {α : Type} (d : α) :
    ∀ (l : List α) (n i : Nat), i < l.length → (n + i, l.getD i d) ∈ l.enumFrom n := by
  intro l
  induction l with
  | nil => intro n i h; simp at h
  | cons a as ih =>
    intro n i h
    cases i with
    | zero => exact List.mem_cons_self _ _
    | succ j =>
      have hmem := ih (n + 1) j (by simpa using h)
      rw [show n + (j + 1) = n + 1 + j by omega]
      exact List.mem_cons_of_mem _ hmem

theorem getD_mem_enum {α : Type} (d : α) (l : List α) (i : Nat) (h : i < l.length) :
    (i, l.getD i d) ∈ l.enum := by
  have hm := getD_mem_enumFrom d l 0 i h
  simpa [List.enum] using hm

theorem aget_buildSigMap (v iv : List Event)
    (hsig : ((v ++ iv).map make_event_signature).Nodup) :
    (∀ i, ∀ _ : i < v.length,
      aget (buildSigMap v iv) (make_event_signature (v.getD i [])) = some (Loc.valid, i)) ∧
    (∀ j, ∀ _ : j < iv.length,
      aget (buildSigMap v iv) (make_event_signature (iv.getD j [])) = some (Loc.invalid, j)) := by
  have hnd : (((v.enum.map (fun p => (make_event_signature p.2, (Loc.valid, p.1))))
      ++ (iv.enum.map (fun p => (make_event_signature p.2, (Loc.invalid, p.1))))).map Prod.fst).Nodup := by
    rw [sigPairs_keys]
    exact hsig
  constructor
  · intro i h
    rw [buildSigMap_eq]
    apply aget_foldl_aset_mem _ _ _ _ hnd
    apply List.mem_append_left
    have hm : (i, v.getD i []) ∈ v.enum := getD_mem_enum [] v i h
    have hm2 := List.mem_map_of_mem
      (fun p : Nat × Event => (make_event_signature p.2, (Loc.valid, p.1))) hm
    exact hm2
  · intro j h
    rw [buildSigMap_eq]
    apply aget_foldl_aset_mem _ _ _ _ hnd
    apply List.mem_append_right
    have hm : (j, iv.getD j []) ∈ iv.enum := getD_mem_enum [] iv j h
    have hm2 := List.mem_map_of_mem
      (fun p : Nat × Event => (make_event_signature p.2, (Loc.invalid, p.1))) hm
    exact hm2

theorem resolveLoc_bounds (idx : Int) (nv ni : Nat) (loc : Loc) (i : Nat)
    (h : resolveLoc idx nv ni = some (loc, i)) :
    (loc = Loc.valid → i < nv) ∧ (loc = Loc.invalid → i < ni) := by
  unfold resolveLoc at h
  by_cases h1 : 0 ≤ idx ∧ idx < (nv : Int)
  · rw [if_pos h1] at h
    simp only [Option.some.injEq, Prod.mk.injEq] at h
    obtain ⟨hl, hi⟩ := h
    subst hl
    subst hi
    refine ⟨fun _ => ?_, fun hc => by simp at hc⟩
    omega
  · rw [if_neg h1] at h
    by_cases h2 : idx < 0
    · rw [if_pos h2] at h
      have hzeta : (let j := (-idx - 1).toNat;
          if j < ni then some (Loc.invalid, j) else none)
          = (if (-idx - 1).toNat < ni then some (Loc.invalid, (-idx - 1).toNat) else none) := rfl
      rw [hzeta] at h
      by_cases h3 : (-idx - 1).toNat < ni
      · rw [if_pos h3] at h
        simp only [Option.some.injEq, Prod.mk.injEq] at h
        obtain ⟨hl, hi⟩ := h
        subst hl
        subst hi
        exact ⟨fun hc => by simp at hc, fun _ => h3⟩
      · rw [if_neg h3] at h
        simp at h
    · rw [if_neg h2] at h
      simp at h

theorem stepIP_length (st : List Event × List Event) (ov : Override) :
    (stepIP st ov).1.length = st.1.length ∧ (stepIP st ov).2.length = st.2.length := by
  unfold stepIP
  rcases h : resolveLoc ov.event_index st.1.length st.2.length with _ | ⟨loc, i⟩
  · exact ⟨rfl, rfl⟩
  · cases loc <;> simp [List.length_set]

theorem resolveLoc_some (idx : Int) (nv ni : Nat) (loc : Loc) (i : Nat)
    (h : resolveLoc idx nv ni = some (loc, i)) :
    (loc = Loc.valid ∧ 0 ≤ idx ∧ idx.toNat = i ∧ i < nv) ∨
    (loc = Loc.invalid ∧ idx < 0 ∧ (-idx - 1).toNat = i ∧ i < ni) := by
  unfold resolveLoc at h
  by_cases h1 : 0 ≤ idx ∧ idx < (nv : Int)
  · rw [if_pos h1] at h
    simp only [Option.some.injEq, Prod.mk.injEq] at h
    obtain ⟨hl, hi⟩ := h
    subst hl
    subst hi
    left
    exact ⟨rfl, h1.1, rfl, by omega⟩
  · rw [if_neg h1] at h
    by_cases h2 : idx < 0
    · rw [if_pos h2] at h
      have hzeta : (let j := (-idx - 1).toNat;
          if j < ni then some (Loc.invalid, j) else none)
          = (if (-idx - 1).toNat < ni then some (Loc.invalid, (-idx - 1).toNat) else none) := rfl
      rw [hzeta] at h
      by_cases h3 : (-idx - 1).toNat < ni
      · rw [if_pos h3] at h
        simp only [Option.some.injEq, Prod.mk.injEq] at h
        obtain ⟨hl, hi⟩ := h
        subst hl
        subst hi
        right
        exact ⟨rfl, h2, rfl, h3⟩
      · rw [if_neg h3] at h
        simp at h
    · rw [if_neg h2] at h
      simp at h

theorem resolveLoc_inj (a b : Int) (nv ni : Nat) (t : Loc × Nat)
    (ha : resolveLoc a nv ni = some t) (hb : resolveLoc b nv ni = some t) : a = b := by
  obtain ⟨loc, i⟩ := t
  rcases resolveLoc_some a nv ni loc i ha with ⟨_, ha1, ha2, _⟩ | ⟨hla, ha1, ha2, _⟩ <;>
    rcases resolveLoc_some b nv ni loc i hb with ⟨_, hb1, hb2, _⟩ | ⟨hlb, hb1, hb2, _⟩
  · omega
  · subst hlb; simp at *
  · subst hla; simp at *
  · omega

theorem stepIP_resolve_none (st : List Event × List Event) (ov : Override)
    (h : resolveLoc ov.event_index st.1.length st.2.length = none) :
    stepIP st ov = st := by
  unfold stepIP
  rw [h]

theorem stepIP_resolve_valid (st : List Event × List Event) (ov : Override) (i : Nat)
    (h : resolveLoc ov.event_index st.1.length st.2.length = some (Loc.valid, i)) :
    stepIP st ov = (st.1.set i (inplaceKeepValid ov.override_status ov.override_reason ov.source
      (st.1.getD i [])), st.2) := by
  unfold stepIP
  rw [h]

theorem stepIP_resolve_invalid (st : List Event × List Event) (ov : Override) (i : Nat)
    (h : resolveLoc ov.event_index st.1.length st.2.length = some (Loc.invalid, i)) :
    stepIP st ov = (st.1, st.2.set i (inplaceKeepInvalid ov.override_status ov.override_reason
      ov.source (st.2.getD i []))) := by
  unfold stepIP
  rw [h]

theorem stepIP_sig (st : List Event × List Event) (ov : Override) :
    (∀ i, make_event_signature ((stepIP st ov).1.getD i [])
        = make_event_signature (st.1.getD i [])) ∧
    (∀ j, make_event_signature ((stepIP st ov).2.getD j [])
        = make_event_signature (st.2.getD j [])) := by
  rcases hr : resolveLoc ov.event_index st.1.length st.2.length with _ | ⟨loc, t⟩
  · rw [stepIP_resolve_none st ov hr]
    exact ⟨fun _ => rfl, fun _ => rfl⟩
  · cases loc with
    | valid =>
      rw [stepIP_resolve_valid st ov t hr]
      refine ⟨fun i => ?_, fun j => rfl⟩
      by_cases hit : t = i
      · subst hit
        have hb := (resolveLoc_bounds _ _ _ _ _ hr).1 rfl
        rw [getD_set_self _ _ _ _ hb, sig_inplaceKeepValid]
      · rw [getD_set_ne _ _ _ _ _ hit]
    | invalid =>
      rw [stepIP_resolve_invalid st ov t hr]
      refine ⟨fun i => rfl, fun j => ?_⟩
      by_cases hit : t = j
      · subst hit
        have hb := (resolveLoc_bounds _ _ _ _ _ hr).2 rfl
        rw [getD_set_self _ _ _ _ hb, sig_inplaceKeepInvalid]
      · rw [getD_set_ne _ _ _ _ _ hit]

theorem stepIP_getD_other_valid (st : List Event × List Event) (ov : Override) (i : Nat)
    (h : resolveLoc ov.event_index st.1.length st.2.length ≠ some (Loc.valid, i)) :
    (stepIP st ov).1.getD i [] = st.1.getD i [] := by
  rcases hr : resolveLoc ov.event_index st.1.length st.2.length with _ | ⟨loc, t⟩
  · rw [stepIP_resolve_none st ov hr]
  · cases loc with
    | valid =>
      rw [stepIP_resolve_valid st ov t hr]
      have hti : t ≠ i := fun he => h (he ▸ hr)
      exact getD_set_ne _ _ _ _ _ hti
    | invalid =>
      rw [stepIP_resolve_invalid st ov t hr]

theorem stepIP_getD_other_invalid (st : List Event × List Event) (ov : Override) (j : Nat)
    (h : resolveLoc ov.event_index st.1.length st.2.length ≠ some (Loc.invalid, j)) :
    (stepIP st ov).2.getD j [] = st.2.getD j [] := by
  rcases hr : resolveLoc ov.event_index st.1.length st.2.length with _ | ⟨loc, t⟩
  · rw [stepIP_resolve_none st ov hr]
  · cases loc with
    | valid =>
      rw [stepIP_resolve_valid st ov t hr]
    | invalid =>
      rw [stepIP_resolve_invalid st ov t hr]
      have hti : t ≠ j := fun he => h (he ▸ hr)
      exact getD_set_ne _ _ _ _ _ hti

theorem stepIP_self_stable (st : List Event × List Event) (ov : Override) :
    stepIP (stepIP st ov) ov = stepIP st ov := by
  rcases hr : resolveLoc ov.event_index st.1.length st.2.length with _ | ⟨loc, t⟩
  · rw [stepIP_resolve_none st ov hr, stepIP_resolve_none st ov hr]
  · cases loc with
    | valid =>
      have hb := (resolveLoc_bounds _ _ _ _ _ hr).1 rfl
      rw [stepIP_resolve_valid st ov t hr]
      set A := st.1.set t (inplaceKeepValid ov.override_status ov.override_reason ov.source
        (st.1.getD t [])) with hA
      have hr1' : resolveLoc ov.event_index ((A, st.2)).1.length ((A, st.2)).2.length
          = some (Loc.valid, t) := by
        show resolveLoc ov.event_index A.length st.2.length = _
        rw [hA, List.length_set]
        exact hr
      rw [stepIP_resolve_valid _ ov t hr1']
      have hg : A.getD t []
          = inplaceKeepValid ov.override_status ov.override_reason ov.source (st.1.getD t []) := by
        rw [hA]
        exact getD_set_self _ _ _ _ hb
      show (A.set t (inplaceKeepValid ov.override_status ov.override_reason ov.source
        (A.getD t [])), st.2) = (A, st.2)
      rw [hg, inplaceKeepValid_idem, ← hg, set_getD_self]
    | invalid =>
      have hb := (resolveLoc_bounds _ _ _ _ _ hr).2 rfl
      rw [stepIP_resolve_invalid st ov t hr]
      set B := st.2.set t (inplaceKeepInvalid ov.override_status ov.override_reason ov.source
        (st.2.getD t [])) with hB
      have hr1' : resolveLoc ov.event_index ((st.1, B)).1.length ((st.1, B)).2.length
          = some (Loc.invalid, t) := by
        show resolveLoc ov.event_index st.1.length B.length = _
        rw [hB, List.length_set]
        exact hr
      rw [stepIP_resolve_invalid _ ov t hr1']
      have hg : B.getD t []
          = inplaceKeepInvalid ov.override_status ov.override_reason ov.source (st.2.getD t []) := by
        rw [hB]
        exact getD_set_self _ _ _ _ hb
      show (st.1, B.set t (inplaceKeepInvalid ov.override_status ov.override_reason ov.source
        (B.getD t []))) = (st.1, B)
      rw [hg, inplaceKeepInvalid_idem, ← hg, set_getD_self]

theorem stepIP_stable_preserved (st : List Event × List Event) (ov ov' : Override)
    (hst : stepIP st ov = st) (hne : ov'.event_index ≠ ov.event_index) :
    stepIP (stepIP st ov') ov = stepIP st ov' := by
  have hlen := stepIP_length st ov'
  rcases hr : resolveLoc ov.event_index st.1.length st.2.length with _ | ⟨loc, t⟩
  · have hr2 : resolveLoc ov.event_index (stepIP st ov').1.length (stepIP st ov').2.length
        = none := by
      rw [hlen.1, hlen.2]
      exact hr
    exact stepIP_resolve_none _ ov hr2
  · have hr2 : resolveLoc ov.event_index (stepIP st ov').1.length (stepIP st ov').2.length
        = some (loc, t) := by
      rw [hlen.1, hlen.2]
      exact hr
    have hother : resolveLoc ov'.event_index st.1.length st.2.length ≠ some (loc, t) := by
      intro hc
      exact hne (resolveLoc_inj _ _ _ _ _ hc hr)
    cases loc with
    | valid =>
      have hb := (resolveLoc_bounds _ _ _ _ _ hr).1 rfl
      have hkeep : (stepIP st ov').1.getD t [] = st.1.getD t [] :=
        stepIP_getD_other_valid st ov' t hother
      have hfix : inplaceKeepValid ov.override_status ov.override_reason ov.source
          (st.1.getD t []) = st.1.getD t [] := by
        have h1 := stepIP_resolve_valid st ov t hr
        rw [hst] at h1
        have h2 : st.1 = st.1.set t (inplaceKeepValid ov.override_status ov.override_reason
            ov.source (st.1.getD t [])) := congrArg Prod.fst h1
        have h3 := getD_set_self (inplaceKeepValid ov.override_status ov.override_reason
            ov.source (st.1.getD t [])) ([] : Event) st.1 t hb
        rw [← h2] at h3
        exact h3.symm
      rw [stepIP_resolve_valid _ ov t hr2, hkeep, hfix, ← hkeep, set_getD_self]
    | invalid =>
      have hb := (resolveLoc_bounds _ _ _ _ _ hr).2 rfl
      have hkeep : (stepIP st ov').2.getD t [] = st.2.getD t [] :=
        stepIP_getD_other_invalid st ov' t hother
      have hfix : inplaceKeepInvalid ov.override_status ov.override_reason ov.source
          (st.2.getD t []) = st.2.getD t [] := by
        have h1 := stepIP_resolve_invalid st ov t hr
        rw [hst] at h1
        have h2 : st.2 = st.2.set t (inplaceKeepInvalid ov.override_status ov.override_reason
            ov.source (st.2.getD t [])) := congrArg Prod.snd h1
        have h3 := getD_set_self (inplaceKeepInvalid ov.override_status ov.override_reason
            ov.source (st.2.getD t [])) ([] : Event) st.2 t hb
        rw [← h2] at h3
        exact h3.symm
      rw [stepIP_resolve_invalid _ ov t hr2, hkeep, hfix, ← hkeep, set_getD_self]

theorem stable_foldIP (ov : Override) :
    ∀ (rest : List Override) (st : List Event × List Event),
      stepIP st ov = st →
      (∀ ov' ∈ rest, ov'.event_index ≠ ov.event_index) →
      stepIP (rest.foldl stepIP st) ov = rest.foldl stepIP st := by
  intro rest
  induction rest with
  | nil => intro st hst _; exact hst
  | cons ov2 rest2 ih =>
    intro st hst hne
    rw [List.foldl_cons]
    have hst2 : stepIP (stepIP st ov2) ov = stepIP st ov2 :=
      stepIP_stable_preserved st ov ov2 hst (hne ov2 (List.mem_cons_self _ _))
    exact ih (stepIP st ov2) hst2 (fun ov' hm => hne ov' (List.mem_cons_of_mem _ hm))

theorem foldIP_replay :
    ∀ (ovs : List Override) (st : List Event × List Event),
      (ovs.map (fun ov => ov.event_index)).Nodup →
      ovs.foldl stepIP (ovs.foldl stepIP st) = ovs.foldl stepIP st := by
  intro ovs
  induction ovs with
  | nil => intro st _; rfl
  | cons ov rest ih =>
    intro st hnd
    rw [List.map_cons] at hnd
    obtain ⟨hnotin, hnd'⟩ := List.nodup_cons.mp hnd
    have hne : ∀ ov' ∈ rest, ov'.event_index ≠ ov.event_index := by
      intro ov' hm he
      have hmm : ov'.event_index ∈ rest.map (fun o : Override => o.event_index) :=
        List.mem_map_of_mem _ hm
      rw [he] at hmm
      exact hnotin hmm
    rw [List.foldl_cons, List.foldl_cons]
    have hstable : stepIP (rest.foldl stepIP (stepIP st ov)) ov
        = rest.foldl stepIP (stepIP st ov) :=
      stable_foldIP ov rest (stepIP st ov) (stepIP_self_stable st ov) hne
    rw [hstable]
    exact ih (stepIP st ov) hnd'

theorem foldIP_length (ovs : List Override) :
    ∀ st : List Event × List Event,
      (ovs.foldl stepIP st).1.length = st.1.length
        ∧ (ovs.foldl stepIP st).2.length = st.2.length := by
  induction ovs with
  | nil => intro st; exact ⟨rfl, rfl⟩
  | cons ov rest ih =>
    intro st
    rw [List.foldl_cons]
    have h1 := ih (stepIP st ov)
    have h2 := stepIP_length st ov
    exact ⟨h1.1.trans h2.1, h1.2.trans h2.2⟩

theorem foldIP_sig (ovs : List Override) :
    ∀ st : List Event × List Event,
      (∀ i, make_event_signature ((ovs.foldl stepIP st).1.getD i [])
          = make_event_signature (st.1.getD i [])) ∧
      (∀ j, make_event_signature ((ovs.foldl stepIP st).2.getD j [])
          = make_event_signature (st.2.getD j [])) := by
  induction ovs with
  | nil => intro st; exact ⟨fun _ => rfl, fun _ => rfl⟩
  | cons ov rest ih =>
    intro st
    rw [List.foldl_cons]
    have h1 := ih (stepIP st ov)
    have h2 := stepIP_sig st ov
    exact ⟨fun i => (h1.1 i).trans (h2.1 i), fun j => (h1.2 j).trans (h2.2 j)⟩

theorem ovStep_inplace (v iv : List Event)
    (hsig : ((v ++ iv).map make_event_signature).Nodup)
    (v' iv' : List Event) (mi mv : List (Nat × Event)) (ov : Override)
    (hl1 : v'.length = v.length) (hl2 : iv'.length = iv.length)
    (hs1 : ∀ i, make_event_signature (v'.getD i []) = make_event_signature (v.getD i []))
    (hs2 : ∀ j, make_event_signature (iv'.getD j []) = make_event_signature (iv.getD j []))
    (hok : inPlaceOkB ov v.length iv.length = true) :
    ovStep (buildSigMap v iv) (v', iv', mi, mv) ov
      = ((stepIP (v', iv') ov).1, (stepIP (v', iv') ov).2, mi, mv) := by
  rcases hr : resolveLoc ov.event_index v'.length iv'.length with _ | ⟨loc0, i0⟩
  · have hr' : resolveLoc ov.event_index ((v', iv') : List Event × List Event).1.length
        ((v', iv') : List Event × List Event).2.length = none := hr
    rw [stepIP_resolve_none _ _ hr']
    simp only [ovStep, hr]
  · have hrv : resolveLoc ov.event_index v.length iv.length = some (loc0, i0) := by
      rw [← hl1, ← hl2]
      exact hr
    cases loc0 with
    | valid =>
      have hi0 : i0 < v.length := by
        rw [← hl1]
        exact (resolveLoc_bounds _ _ _ _ _ hr).1 rfl
      have hlook : aget (buildSigMap v iv) (make_event_signature (v'.getD i0 []))
          = some (Loc.valid, i0) := by
        rw [hs1 i0]
        exact (aget_buildSigMap v iv hsig).1 i0 hi0
      have hst : (ov.override_status == some "invalid") = false := by
        unfold inPlaceOkB at hok
        rw [hrv] at hok
        simpa using hok
      have hr' : resolveLoc ov.event_index ((v', iv') : List Event × List Event).1.length
          ((v', iv') : List Event × List Event).2.length = some (Loc.valid, i0) := hr
      rw [stepIP_resolve_valid _ _ _ hr']
      simp only [ovStep, hr, hlook, hst, Bool.false_eq_true, if_false]
    | invalid =>
      have hi0 : i0 < iv.length := by
        rw [← hl2]
        exact (resolveLoc_bounds _ _ _ _ _ hr).2 rfl
      have hlook : aget (buildSigMap v iv) (make_event_signature (iv'.getD i0 []))
          = some (Loc.invalid, i0) := by
        rw [hs2 i0]
        exact (aget_buildSigMap v iv hsig).2 i0 hi0
      have hst : (ov.override_status == some "valid") = false := by
        unfold inPlaceOkB at hok
        rw [hrv] at hok
        simpa using hok
      have hr' : resolveLoc ov.event_index ((v', iv') : List Event × List Event).1.length
          ((v', iv') : List Event × List Event).2.length = some (Loc.invalid, i0) := hr
      rw [stepIP_resolve_invalid _ _ _ hr']
      simp only [ovStep, hr, hlook, hst, Bool.false_eq_true, if_false]

theorem ovLoop_inplace (v iv : List Event)
    (hsig : ((v ++ iv).map make_event_signature).Nodup) :
    ∀ (ovs : List Override) (v' iv' : List Event) (mi mv : List (Nat × Event)),
      v'.length = v.length → iv'.length = iv.length →
      (∀ i, make_event_signature (v'.getD i []) = make_event_signature (v.getD i [])) →
      (∀ j, make_event_signature (iv'.getD j []) = make_event_signature (iv.getD j [])) →
      (∀ ov ∈ ovs, inPlaceOkB ov v.length iv.length = true) →
      ovs.foldl (ovStep (buildSigMap v iv)) (v', iv', mi, mv)
        = ((ovs.foldl stepIP (v', iv')).1, (ovs.foldl stepIP (v', iv')).2, mi, mv) := by
  intro ovs
  induction ovs with
  | nil => intro v' iv' mi mv _ _ _ _ _; rfl
  | cons ov rest ih =>
    intro v' iv' mi mv hl1 hl2 hs1 hs2 hok
    rw [List.foldl_cons, List.foldl_cons]
    rw [ovStep_inplace v iv hsig v' iv' mi mv ov hl1 hl2 hs1 hs2 (hok ov (List.mem_cons_self _ _))]
    have hL := stepIP_length (v', iv') ov
    have hS := stepIP_sig (v', iv') ov
    have hrec := ih (stepIP (v', iv') ov).1 (stepIP (v', iv') ov).2 mi mv
      (by rw [hL.1]; exact hl1) (by rw [hL.2]; exact hl2)
      (fun i => by rw [hS.1 i]; exact hs1 i) (fun j => by rw [hS.2 j]; exact hs2 j)
      (fun ov2 hm => hok ov2 (List.mem_cons_of_mem _ hm))
    exact hrec

theorem applySheet_inplace (ovs : List Override) (v iv : List Event)
    (hsig : ((v ++ iv).map make_event_signature).Nodup)
    (hok : ∀ ov ∈ ovs, inPlaceOkB ov v.length iv.length = true) :
    applySheetOverrides ovs v iv = some (ovs.foldl stepIP (v, iv)) := by
  have hloop := ovLoop_inplace v iv hsig ovs v iv [] [] rfl rfl
    (fun _ => rfl) (fun _ => rfl) hok
  unfold applySheetOverrides
  simp only []
  rw [hloop]
  rfl

theorem map_eq_of_getD {α β : Type} (f : α → β) (d : α) :
    ∀ (l l' : List α), l.length = l'.length →
      (∀ i, f (l.getD i d) = f (l'.getD i d)) → l.map f = l'.map f := by
  intro l
  induction l with
  | nil =>
    intro l' hlen _
    cases l' with
    | nil => rfl
    | cons b bs => simp at hlen
  | cons a as ih =>
    intro l' hlen hf
    cases l' with
    | nil => simp at hlen
    | cons b bs =>
      rw [List.map_cons, List.map_cons]
      have h0 : f a = f b := hf 0
      have hrest := ih bs (by simpa using hlen) (fun i => hf (i + 1))
      rw [h0, hrest]

theorem applySheet_idem (ovs : List Override) (v iv : List Event)
    (hsig : ((v ++ iv).map make_event_signature).Nodup)
    (hok : ∀ ov ∈ ovs, inPlaceOkB ov v.length iv.length = true)
    (hix : (ovs.map (fun ov => ov.event_index)).Nodup) :
    applySheetOverrides ovs v iv = some (ovs.foldl stepIP (v, iv)) ∧
    applySheetOverrides ovs (ovs.foldl stepIP (v, iv)).1 (ovs.foldl stepIP (v, iv)).2
      = some (ovs.foldl stepIP (v, iv)) := by
  have h1 := applySheet_inplace ovs v iv hsig hok
  have hlen := foldIP_length ovs (v, iv)
  have hsg := foldIP_sig ovs (v, iv)
  have hsig1 : (((ovs.foldl stepIP (v, iv)).1 ++ (ovs.foldl stepIP (v, iv)).2).map
      make_event_signature).Nodup := by
    rw [List.map_append] at hsig ⊢
    rw [map_eq_of_getD make_event_signature [] (ovs.foldl stepIP (v, iv)).1 v hlen.1 hsg.1,
        map_eq_of_getD make_event_signature [] (ovs.foldl stepIP (v, iv)).2 iv hlen.2 hsg.2]
    exact hsig
  have hok1 : ∀ ov ∈ ovs, inPlaceOkB ov (ovs.foldl stepIP (v, iv)).1.length
      (ovs.foldl stepIP (v, iv)).2.length = true := by
    intro ov hm
    rw [hlen.1, hlen.2]
    exact hok ov hm
  have h2 := applySheet_inplace ovs (ovs.foldl stepIP (v, iv)).1 (ovs.foldl stepIP (v, iv)).2
    hsig1 hok1
  refine ⟨h1, ?_⟩
  rw [h2]
  exact congrArg some (foldIP_replay ovs (v, iv) hix)

theorem applyMemberSheet_idem (all : List Override) (sheet : Sheet)
    (hsig : ((sheet.rows ++ sheet.invalid_events).map make_event_signature).Nodup)
    (hok : ∀ ov ∈ all.filter (fun o => o.sheet_file == sheet.source_file),
        inPlaceOkB ov sheet.rows.length sheet.invalid_events.length = true)
    (hix : ((all.filter (fun o => o.sheet_file == sheet.source_file)).map
        (fun o => o.event_index)).Nodup) :
    ∃ sheet1, applyMemberSheet all sheet = some sheet1
      ∧ applyMemberSheet all sheet1 = some sheet1 := by
  obtain ⟨sf, rows, iv, oth⟩ := sheet
  dsimp only at hsig hok hix
  by_cases he : (all.filter (fun ov => ov.sheet_file == sf)).isEmpty
  · refine ⟨⟨sf, rows, iv, oth⟩, ?_, ?_⟩ <;>
    · unfold applyMemberSheet
      dsimp only
      rw [if_pos he]
  · obtain ⟨h1, h2⟩ := applySheet_idem (all.filter (fun ov => ov.sheet_file == sf))
      rows iv hsig hok hix
    refine ⟨⟨sf,
      ((all.filter (fun ov => ov.sheet_file == sf)).foldl stepIP (rows, iv)).1,
      ((all.filter (fun ov => ov.sheet_file == sf)).foldl stepIP (rows, iv)).2, oth⟩, ?_, ?_⟩
    · unfold applyMemberSheet
      dsimp only
      rw [if_neg he, h1]
    · unfold applyMemberSheet
      dsimp only
      rw [if_neg he, h2]

theorem optMap_idem_pointwise {α : Type} (f : α → Option α) :
    ∀ l : List α, (∀ a ∈ l, ∃ b, f a = some b ∧ f b = some b) →
      ∃ l1, optMap f l = some l1 ∧ optMap f l1 = some l1 := by
  intro l
  induction l with
  | nil => intro _; exact ⟨[], rfl, rfl⟩
  | cons a as ih =>
    intro h
    obtain ⟨b, hb, hbb⟩ := h a (List.mem_cons_self _ _)
    obtain ⟨bs, hbs, hbsbs⟩ := ih (fun x hm => h x (List.mem_cons_of_mem _ hm))
    refine ⟨b :: bs, ?_, ?_⟩
    · unfold optMap
      rw [hb, hbs]
    · unfold optMap
      rw [hbb, hbsbs]

/-- Claim C2: reconciliation is idempotent whenever every stored override
still resolves at its recorded locator to an event whose desired status
matches its current collection (no relocation), provided event signatures
are distinct and the stored locators are distinct. -/
theorem apply_overrides_idempotent_inplace (store : OverrideFile) (m : Member)
    (h : ∀ sheet ∈ m.sheets,
      ((sheet.rows ++ sheet.invalid_events).map make_event_signature).Nodup ∧
      (∀ ov ∈ store.overrides.filter (fun o => o.sheet_file == sheet.source_file),
          inPlaceOkB ov sheet.rows.length sheet.invalid_events.length = true) ∧
      ((store.overrides.filter (fun o => o.sheet_file == sheet.source_file)).map
          (fun o => o.event_index)).Nodup) :
    ∃ m1, apply_overrides store m = some m1 ∧ apply_overrides store m1 = some m1 := by
  by_cases hemp : store.overrides.isEmpty
  · refine ⟨m, ?_, ?_⟩ <;>
    · unfold apply_overrides
      rw [if_pos hemp]
  · obtain ⟨sheets1, hs1, hs2⟩ := optMap_idem_pointwise (applyMemberSheet store.overrides)
      m.sheets (fun sheet hm =>
        applyMemberSheet_idem store.overrides sheet (h sheet hm).1 (h sheet hm).2.1
          (h sheet hm).2.2)
    obtain ⟨msheets, moth⟩ := m
    dsimp only at hs1
    refine ⟨⟨sheets1, moth⟩, ?_, ?_⟩
    · unfold apply_overrides
      rw [if_neg hemp]
      dsimp only
      rw [hs1]
    · unfold apply_overrides
      rw [if_neg hemp]
      dsimp only
      rw [hs2]

/-- Witness for the amended idempotence theorem at a concrete snapshot. -/
theorem apply_overrides_idempotent_inplace_witness :
    (∀ sheet ∈ memberW.sheets,
      ((sheet.rows ++ sheet.invalid_events).map make_event_signature).Nodup ∧
      (∀ ov ∈ storeW.overrides.filter (fun o => o.sheet_file == sheet.source_file),
          inPlaceOkB ov sheet.rows.length sheet.invalid_events.length = true) ∧
      ((storeW.overrides.filter (fun o => o.sheet_file == sheet.source_file)).map
          (fun o => o.event_index)).Nodup) ∧
    ∃ m1, apply_overrides storeW memberW = some m1 ∧ apply_overrides storeW m1 = some m1 :=
  ⟨by decide, apply_overrides_idempotent_inplace storeW memberW (by decide)⟩

/-- Claim C2 counterexample: an override that relocates its event breaks
idempotence.  The first run moves valid row 0 to the invalid collection
(1 valid row and 1 invalid event remain); re-running the same store on the
result moves the OTHER event, which now sits at valid row 0, leaving 0
valid rows and 2 invalid events. -/
theorem apply_overrides_not_idempotent :
    (apply_overrides storeC2 memberC2).map
        (fun m => m.sheets.map (fun s => (s.rows.length, s.invalid_events.length)))
      = some [(1, 1)] ∧
    ((apply_overrides storeC2 memberC2).bind (apply_overrides storeC2)).map
        (fun m => m.sheets.map (fun s => (s.rows.length, s.invalid_events.length)))
      = some [(0, 2)] := by
  exact ⟨by decide, by decide⟩
